import Mathlib

/-! Fork-passing philosophers (`lab1/code/drinking-phil.cpp`).

A shallow embedding of the per-process fork table, the two message handlers
`parse_request` / `parse_response`, the think / hungry / eat / release cycle of
`main`, and the N-process system obtained by running one copy of `main` per rank
over per-pair FIFO channels.

Conventions of the embedding:
* C++ `int` values (ranks, fork ids, message tags) are `Int`; the program performs
  no arithmetic on them besides `N - 1`, `N - 2`, `k - 1`, `k + 1` at start-up.
* `vector<Fork> my_forks` always has exactly two elements (two `push_back` calls at
  start-up, never resized), so it is a record with two slots indexed by `0` and `1`.
* `stack<ForkMessage> requests` is a list whose head is the top of the stack.
* `MPI_Send(&m, ..., dest, ...)` appends the packet `(dest, m)` to the process's
  log of sent packets.
-/

namespace DrinkingPhil

/-! ## Data model -/

/-- One fork record, `struct Fork`. -/
structure Fork where
  id : Int
  clean : Bool
  owner : Int
  alt_owner : Int
deriving DecidableEq, Repr

/-- One protocol message, `struct ForkMessage`. -/
structure ForkMessage where
  id : Int
  sender : Int
  type : Int
deriving DecidableEq, Repr

/-- Message tag `#define FORK_REQUEST 0`. -/
def FORK_REQUEST : Int := 0

/-- Message tag `#define FORK_RESPONSE 1` (the grant tag). -/
def FORK_RESPONSE : Int := 1

/-- The two-element `vector<Fork>` of a process. -/
structure Forks where
  f0 : Fork
  f1 : Fork
deriving DecidableEq, Repr

/-- Read `forks[i]` for `i` in `{0, 1}`. -/
def Forks.get (fs : Forks) (i : Nat) : Fork :=
  if i = 0 then fs.f0 else fs.f1

/-- Write `forks[i] = f` for `i` in `{0, 1}`. -/
def Forks.set (fs : Forks) (i : Nat) (f : Fork) : Forks :=
  if i = 0 then { fs with f0 := f } else { fs with f1 := f }

/-- One `MPI_Send`: the destination rank and the message body. -/
structure Packet where
  dest : Int
  msg : ForkMessage
deriving DecidableEq, Repr

/-- The data a process owns: fork table, deferred-request stack (head = top) and
the log of packets it has handed to `MPI_Send`, oldest first. -/
structure Proc where
  forks : Forks
  requests : List ForkMessage
  sent : List Packet
deriving DecidableEq, Repr

/-! ## Message handlers -/

/-- Body of the `for` loop of `parse_request` at index `i`. -/
def parse_request_at (i : Nat) (msg : ForkMessage) (k : Int) (s : Proc) : Proc :=
  if (s.forks.get i).id = msg.id then
    if (s.forks.get i).owner = k then
      if !(s.forks.get i).clean then
        let outbound : ForkMessage := ⟨(s.forks.get i).id, k, FORK_RESPONSE⟩
        { s with
          forks := s.forks.set i
            { (s.forks.get i) with owner := msg.sender, alt_owner := k, clean := true }
          sent := s.sent ++ [⟨msg.sender, outbound⟩] }
      else
        { s with requests := msg :: s.requests }
    else
      { s with requests := msg :: s.requests }
  else s

/-- The handler `parse_request(msg, forks, requests, k)`: the loop runs `i = 0, 1`. -/
def parse_request (msg : ForkMessage) (s : Proc) (k : Int) : Proc :=
  parse_request_at 1 msg k (parse_request_at 0 msg k s)

/-- Body of the `for` loop of `parse_response` at index `i`. -/
def parse_response_at (i : Nat) (msg : ForkMessage) (k : Int) (fs : Forks) : Forks :=
  if (fs.get i).id = msg.id then
    fs.set i { (fs.get i) with clean := true, owner := k, alt_owner := msg.sender }
  else fs

/-- The handler `parse_response(msg, forks, k)`: the loop runs `i = 0, 1`. It only
receives the fork table, so the deferred stack and the send log are out of its reach. -/
def parse_response (msg : ForkMessage) (fs : Forks) (k : Int) : Forks :=
  parse_response_at 1 msg k (parse_response_at 0 msg k fs)

/-- The call `parse_response(incoming, my_forks, k)` seen on the whole process data. -/
def apply_response (msg : ForkMessage) (s : Proc) (k : Int) : Proc :=
  { s with forks := parse_response msg s.forks k }

/-! ## Start-up: the initial fork table -/

/-- The fork table built at the start of `main` by the process of rank `k` among `N`. -/
def init_forks (N k : Int) : Forks :=
  if k = 0 then
    ⟨⟨0, false, 0, 1⟩, ⟨1, false, 0, 1⟩⟩
  else if k = N - 1 then
    ⟨⟨N - 1, false, N - 2, N - 1⟩, ⟨0, false, 0, N - 1⟩⟩
  else
    ⟨⟨k, false, k - 1, k⟩, ⟨k + 1, false, k, k + 1⟩⟩

/-- The process data right after start-up: initial forks, empty stack, nothing sent. -/
def init_proc (N k : Int) : Proc :=
  ⟨init_forks N k, [], []⟩

/-- Rank `k` believes it holds fork `f`: one of its records has id `f` and owner `k`. -/
def holds (fs : Forks) (k f : Int) : Prop :=
  (fs.f0.id = f ∧ fs.f0.owner = k) ∨ (fs.f1.id = f ∧ fs.f1.owner = k)

instance (fs : Forks) (k f : Int) : Decidable (holds fs k f) := by
  unfold holds; infer_instance

/-- Rank `k` has a record of fork `f`. -/
def has_record (fs : Forks) (f : Int) : Prop :=
  fs.f0.id = f ∨ fs.f1.id = f

instance (fs : Forks) (f : Int) : Decidable (has_record fs f) := by
  unfold has_record; infer_instance

/-- The initial "waits-for" relation among the ranks `0..N-1`: `waits_for N j k` says
that `k` lacks a fork which its initial table records as held by `j`. -/
def waits_for (N : Int) (j k : Int) : Prop :=
  0 ≤ k ∧ k < N ∧
    (((init_forks N k).f0.owner ≠ k ∧ (init_forks N k).f0.owner = j) ∨
     ((init_forks N k).f1.owner ≠ k ∧ (init_forks N k).f1.owner = j))

/-! ## The cycle of `main` as a small-step machine -/

/-- Control points of the `while(true)` loop of `main`.
* `think`: inside `while(c_time < sleep_time)` (THINKING);
* `scan i has_all`: head of `for(int i = 0; i < 2; ++i)` inside `while(!has_all)`,
  about to test `i < 2` (HUNGRY);
* `wait i`: head of `while(my_forks[i].owner != k)` (HUNGRY, blocked on fork `i`);
* `eat`: both forks acquired, about to mark them dirty (EATING);
* `release`: head of `while(!requests.empty())`. -/
inductive Phase where
  | think
  | scan (i : Nat) (has_all : Bool)
  | wait (i : Nat)
  | eat
  | release
deriving DecidableEq, Repr

/-- Control point together with the data of the process. -/
structure Local where
  phase : Phase
  data : Proc
deriving DecidableEq, Repr

/-- What drives one step of a process: a message handed over by `MPI_Recv`, or the
process moving on by itself. -/
inductive Event where
  | recv (m : ForkMessage)
  | tick
deriving DecidableEq, Repr

/-- Handling of a message received in the think loop: always `parse_request`. -/
def recv_think (m : ForkMessage) (s : Proc) (k : Int) : Proc :=
  parse_request m s k

/-- Handling of a message received in the hungry receive loop: dispatch on the tag. -/
def recv_hungry (m : ForkMessage) (s : Proc) (k : Int) : Proc :=
  if m.type = FORK_RESPONSE then apply_response m s k else parse_request m s k

/-- The eating step `for(i < 2) my_forks[i].clean = false`. -/
def eat_forks (fs : Forks) : Forks :=
  (fs.set 0 { fs.get 0 with clean := false }).set 1 { fs.get 1 with clean := false }

/-- One iteration of the release loop on a non-empty stack: pop, build the outbound
message, send it to the sender of the popped request. -/
def release_one (top : ForkMessage) (rest : List ForkMessage) (s : Proc) (k : Int) : Proc :=
  let outbound : ForkMessage := ⟨top.id, k, FORK_REQUEST⟩
  { s with requests := rest, sent := s.sent ++ [⟨top.sender, outbound⟩] }

/-- One step of the process of rank `k`. `none` means the event is not possible at
this control point (a process blocked in `MPI_Recv` cannot tick; a process outside
a receive cannot take a message). -/
def step (k : Int) (e : Event) (l : Local) : Option Local :=
  match l.phase, e with
  | .think, .recv m => some ⟨.think, recv_think m l.data k⟩
  | .think, .tick => some ⟨.scan 0 true, l.data⟩
  | .scan i has_all, .tick =>
    if i < 2 then
      if (l.data.forks.get i).owner ≠ k then
        let outbound : ForkMessage := ⟨(l.data.forks.get i).id, k, FORK_REQUEST⟩
        some ⟨.wait i,
          { l.data with sent := l.data.sent ++ [⟨(l.data.forks.get i).owner, outbound⟩] }⟩
      else some ⟨.scan (i + 1) has_all, l.data⟩
    else if has_all then some ⟨.eat, l.data⟩
    else some ⟨.scan 0 true, l.data⟩
  | .wait i, .recv m =>
    if (l.data.forks.get i).owner ≠ k then some ⟨.wait i, recv_hungry m l.data k⟩
    else none
  | .wait i, .tick =>
    if (l.data.forks.get i).owner ≠ k then none
    else some ⟨.scan (i + 1) false, l.data⟩
  | .eat, .tick => some ⟨.release, { l.data with forks := eat_forks l.data.forks }⟩
  | .release, .tick =>
    match l.data.requests with
    | [] => some ⟨.think, l.data⟩
    | top :: rest => some ⟨.release, release_one top rest l.data k⟩
  | _, _ => none

/-- Run a process along a schedule of events; `none` as soon as one is impossible. -/
def run (k : Int) : List Event → Local → Option Local
  | [], l => some l
  | e :: es, l =>
    match step k e l with
    | some l1 => run k es l1
    | none => none

/-- The release loop run to completion from its head: pops until the stack is empty.
Terminates because every iteration removes one element of the stack. -/
def release_all (k : Int) : List ForkMessage → Proc → Proc
  | [], s => { s with requests := [] }
  | top :: rest, s => release_all k rest (release_one top rest s k)

/-- From "about to eat" to the end of the release loop: dirty both forks, then drain
the stack. -/
def eat_and_release (k : Int) (s : Proc) : Proc :=
  release_all k s.requests { s with forks := eat_forks s.forks }

/-! ## The N-process system -/

/-- A packet in the network together with the rank that sent it. -/
structure Flight where
  src : Int
  dest : Int
  msg : ForkMessage
deriving DecidableEq, Repr

/-- Global state: one `Local` per rank (only `0..N-1` matter) whose send log holds
what the last step sent, and the packets in flight, oldest first. -/
structure Global where
  locals : Int → Local
  net : List Flight

/-- Empty the send log of a process once its packets are on the network. -/
def settle (l : Local) : Local :=
  { l with data := { l.data with sent := [] } }

/-- The packets a step of rank `k` put on the network. -/
def emitted (k : Int) (l : Local) : List Flight :=
  l.data.sent.map (fun p => ⟨k, p.dest, p.msg⟩)

/-- All ranks at the top of `while(true)` with their initial tables; empty network. -/
def init_global (N : Int) : Global :=
  ⟨fun k => ⟨.think, init_proc N k⟩, []⟩

/-- One step of the system: a rank moves on by itself, or takes the oldest packet of
some sender addressed to it (no packet of the same sender to the same receiver is
ahead of it: `MPI` does not let messages of one pair overtake). -/
inductive GStep (N : Int) : Global → Global → Prop where
  | internal (g : Global) (k : Int) (l1 : Local) :
      0 ≤ k → k < N → step k .tick (g.locals k) = some l1 →
      GStep N g ⟨Function.update g.locals k (settle l1), g.net ++ emitted k l1⟩
  | deliver (g : Global) (k : Int) (pre post : List Flight) (p : Flight) (l1 : Local) :
      0 ≤ k → k < N → g.net = pre ++ p :: post → p.dest = k →
      (∀ q ∈ pre, ¬ (q.src = p.src ∧ q.dest = p.dest)) →
      step k (.recv p.msg) (g.locals k) = some l1 →
      GStep N g ⟨Function.update g.locals k (settle l1), pre ++ post ++ emitted k l1⟩

/-- States the system can reach from start-up. -/
inductive Reachable (N : Int) : Global → Prop where
  | init : Reachable N (init_global N)
  | next (g g1 : Global) : Reachable N g → GStep N g g1 → Reachable N g1

/-! ## Predicates used to state and prove the properties -/

/-- What the acquisition loop knows at each control point: with `has_all` still true
at index `i`, every slot below `i` was seen held by `k` and nothing was received
since; at `eat` both slots are held. -/
def scan_inv (k : Int) (l : Local) : Prop :=
  match l.phase with
  | .scan i true => (0 < i → l.data.forks.f0.owner = k) ∧ (1 < i → l.data.forks.f1.owner = k)
  | .eat => l.data.forks.f0.owner = k ∧ l.data.forks.f1.owner = k
  | _ => True

/-- The record of fork `f` in a table, if there is one (first match). -/
def record_of (fs : Forks) (f : Int) : Option Fork :=
  if fs.f0.id = f then some fs.f0 else if fs.f1.id = f then some fs.f1 else none

/-- Predecessor of rank `f` on the ring of `N` ranks. -/
def ring_pred (N f : Int) : Int :=
  if f = 0 then N - 1 else f - 1

/-- Successor of rank `k` on the ring of `N` ranks. -/
def ring_succ (N k : Int) : Int :=
  if k = N - 1 then 0 else k + 1

/-- Message `m` is a grant of fork `f`: tag `FORK_RESPONSE` and id `f`. -/
def is_grant (f : Int) (m : ForkMessage) : Bool :=
  m.type == FORK_RESPONSE && m.id == f

/-- Number of grants of fork `f` in flight. -/
def grants (f : Int) (net : List Flight) : Nat :=
  net.countP (fun p => is_grant f p.msg)

/-- The invariant of the N-process system behind mutual exclusion: send logs are
flushed, the two records of a rank have different ids, nobody is sent a message
naming itself as sender (in flight or deferred), and each fork is a single token:
at most one rank in range holds it, at most one grant of it is in flight, and none is
in flight while a rank holds it. -/
structure SysInv (N : Int) (g : Global) : Prop where
  flushed : ∀ k : Int, (g.locals k).data.sent = []
  ids : ∀ k : Int, (g.locals k).data.forks.f0.id ≠ (g.locals k).data.forks.f1.id
  no_self : ∀ p ∈ g.net, p.msg.sender ≠ p.dest
  deferred : ∀ k : Int, ∀ r ∈ (g.locals k).data.requests, r.sender ≠ k
  unique : ∀ f j k : Int, 0 ≤ j → j < N → 0 ≤ k → k < N →
    holds (g.locals j).data.forks j f → holds (g.locals k).data.forks k f → j = k
  held : ∀ f k : Int, 0 ≤ k → k < N → holds (g.locals k).data.forks k f → grants f g.net = 0
  single : ∀ f : Int, grants f g.net ≤ 1

/-- What one step of rank `k` from `l` to `l1` on event `e` may do to the tokens. -/
structure StepEffect (k : Int) (e : Event) (l l1 : Local) : Prop where
  id0 : l1.data.forks.f0.id = l.data.forks.f0.id
  id1 : l1.data.forks.f1.id = l.data.forks.f1.id
  out : ∀ q ∈ l1.data.sent, q.dest ≠ k ∧ q.msg.sender = k
  deferred : ∀ r ∈ l1.data.requests, r.sender ≠ k
  gain : ∀ f : Int, holds l1.data.forks k f →
    holds l.data.forks k f ∨ ∃ m, e = .recv m ∧ is_grant f m = true
  give : ∀ f : Int, grants f (emitted k l1) = 0 ∨
    (grants f (emitted k l1) = 1 ∧ holds l.data.forks k f ∧ ¬ holds l1.data.forks k f)

/-! ## An executable scheduler for the N-process system -/

/-- Split the network at the oldest packet addressed to rank `k`. -/
def split_first (k : Int) : List Flight → Option (List Flight × Flight × List Flight)
  | [] => none
  | p :: ps =>
    if p.dest = k then some ([], p, ps)
    else
      match split_first k ps with
      | some (pre, q, post) => some (p :: pre, q, post)
      | none => none

/-- Rank `k` moves on by itself if it can; otherwise nothing happens. -/
def internal_next (g : Global) (k : Int) : Global :=
  match step k .tick (g.locals k) with
  | some l1 => ⟨Function.update g.locals k (settle l1), g.net ++ emitted k l1⟩
  | none => g

/-- Rank `k` receives the oldest packet addressed to it if there is one and it is at
a receive; otherwise nothing happens. -/
def deliver_next (g : Global) (k : Int) : Global :=
  match split_first k g.net with
  | some (pre, p, post) =>
    match step k (.recv p.msg) (g.locals k) with
    | some l1 => ⟨Function.update g.locals k (settle l1), pre ++ post ++ emitted k l1⟩
    | none => g
  | none => g

/-- A scheduling decision: which rank moves, and whether it receives. -/
inductive Move where
  | tick (k : Int)
  | deliver (k : Int)
deriving DecidableEq, Repr

/-- Apply one scheduling decision in a system of `N` ranks. -/
def move_next (N : Int) (g : Global) : Move → Global
  | .tick k => if 0 ≤ k ∧ k < N then internal_next g k else g
  | .deliver k => if 0 ≤ k ∧ k < N then deliver_next g k else g

/-- Apply a schedule, first decision first. -/
def play (N : Int) : List Move → Global → Global
  | [], g => g
  | m :: ms, g => play N ms (move_next N g m)

/-! ## Phases and the deferral log -/

/-- The HUNGRY phase of the spec: the acquisition loop, scanning or blocked. -/
def Phase.hungry : Phase → Bool
  | .scan _ _ => true
  | .wait _ => true
  | _ => false

/-- Message `m` reaches a `requests.push(msg)` of `parse_request` in state `s`: one
of the two records has its id and is not held by `k`, or is held clean. -/
def defers (k : Int) (m : ForkMessage) (s : Proc) : Prop :=
  (s.forks.f0.id = m.id ∧ (s.forks.f0.owner ≠ k ∨ s.forks.f0.clean = true)) ∨
    (s.forks.f1.id = m.id ∧ (s.forks.f1.owner ≠ k ∨ s.forks.f1.clean = true))

instance (k : Int) (m : ForkMessage) (s : Proc) : Decidable (defers k m s) := by
  unfold defers; infer_instance

/-- Handling of one received message; the flag says whether the process is in the
think loop (`true`) or in the hungry receive loop (`false`). -/
def recv_in (think : Bool) (m : ForkMessage) (s : Proc) (k : Int) : Proc :=
  if think then recv_think m s k else recv_hungry m s k

/-- Handling of a sequence of received messages, oldest first. -/
def recv_all (k : Int) : List (Bool × ForkMessage) → Proc → Proc
  | [], s => s
  | (th, m) :: ms, s => recv_all k ms (recv_in th m s k)

/-- The messages of a sequence that were given to `parse_request` and deferred by it,
in the order in which they were received. -/
def deferred_log (k : Int) : List (Bool × ForkMessage) → Proc → List ForkMessage
  | [], _ => []
  | (th, m) :: ms, s =>
    if (th = true ∨ m.type ≠ FORK_RESPONSE) ∧ defers k m s then
      m :: deferred_log k ms (recv_in th m s k)
    else deferred_log k ms (recv_in th m s k)

/-- The packet the release loop sends for a popped request. -/
def release_packet (k : Int) (r : ForkMessage) : Packet :=
  ⟨r.sender, ⟨r.id, k, FORK_REQUEST⟩⟩

/-! ## Two schedules of the ring of 3 -/

/-- A schedule of the ring of 3. Ranks 1 and 2 get hungry; rank 1 hands dirty fork 2 to
rank 2 and obtains fork 1 from rank 0; rank 2 defers rank 1's request for the (clean)
fork 2, obtains fork 0 from rank 0, eats and runs its release loop; then rank 0 gets
hungry, obtains fork 0 back and asks rank 1 for fork 1, and rank 2 gets hungry again
and asks rank 0 for fork 0. -/
def deadlock_schedule : List Move :=
  [.tick 1, .tick 1, .tick 2, .tick 2, .deliver 1, .deliver 2, .deliver 0,
    .deliver 1, .tick 1, .tick 1, .tick 2, .tick 2, .deliver 2, .deliver 0, .deliver 2,
    .tick 2, .tick 2, .tick 2, .tick 2, .tick 2, .tick 2, .tick 2, .tick 2, .deliver 1,
    .tick 0, .tick 0, .deliver 2, .deliver 0, .tick 0, .tick 0, .deliver 1,
    .tick 2, .tick 2, .tick 2, .deliver 0]

/-- A schedule of the ring of 3 after which rank 1 waits for fork 1 for ever. Rank 1
obtains fork 1, eats and thinks; ranks 2 and 0 get hungry; rank 1 hands fork 2 to rank
2 and fork 1 back to rank 0; rank 0 hands fork 0 to rank 2; rank 1 gets hungry again
and asks rank 0 for fork 1, which rank 0 holds clean while waiting for fork 0, so the
request is deferred; rank 2 eats and hands fork 0 back; rank 0 eats and answers the
deferred request from its release loop. -/
def starve_prefix : List Move :=
  [.tick 1, .tick 1, .deliver 0, .deliver 1, .tick 1, .tick 1, .tick 1, .tick 1, .tick 1,
    .tick 1, .tick 1, .tick 1,
    .tick 2, .tick 2, .tick 0, .tick 0, .tick 0,
    .deliver 1, .deliver 2, .tick 2, .tick 2, .deliver 0, .deliver 1, .deliver 0,
    .tick 1, .tick 1,
    .tick 0, .tick 0, .tick 0,
    .deliver 0,
    .deliver 2, .tick 2, .tick 2, .tick 2, .tick 2, .tick 2, .tick 2, .tick 2, .deliver 2,
    .deliver 0, .tick 0, .tick 0, .tick 0, .tick 0, .tick 0, .tick 0, .tick 0, .tick 0,
    .tick 0,
    .deliver 1]

/-- One round after `starve_prefix`: rank 2 gets hungry, obtains fork 0 from rank 0,
eats and thinks; then rank 0 gets hungry, obtains fork 0 back, eats and thinks. -/
def starve_cycle : List Move :=
  [.tick 2, .tick 2, .tick 2, .deliver 0, .deliver 2, .tick 2, .tick 2, .tick 2, .tick 2,
    .tick 2, .tick 2, .tick 2,
    .tick 0, .tick 0, .deliver 2, .deliver 0, .tick 0, .tick 0, .tick 0, .tick 0, .tick 0,
    .tick 0, .tick 0, .tick 0]

/-- The infinite schedule `starve_prefix` (50 moves) followed by `starve_cycle`
(24 moves) for ever. -/
def starve_move (n : Nat) : Move :=
  if n < 50 then starve_prefix.getD n (.tick 0)
  else starve_cycle.getD ((n - 50) % 24) (.tick 0)

/-- The state of the ring of 3 after `n` moves of the infinite schedule. -/
def starve_state : Nat → Global
  | 0 => init_global 3
  | n + 1 => move_next 3 (starve_state n) (starve_move n)

/-- The scheduling decision `m` is a possible step in `g`. -/
def enabled (N : Int) (g : Global) : Move → Bool
  | .tick k => decide (0 ≤ k ∧ k < N) && (step k .tick (g.locals k)).isSome
  | .deliver k =>
    decide (0 ≤ k ∧ k < N) &&
      (match split_first k g.net with
        | some (_, p, _) => (step k (.recv p.msg) (g.locals k)).isSome
        | none => false)

/-- Two states of the ring of 3 with the same three processes and the same network. -/
def agree (g g1 : Global) : Prop :=
  g.locals 0 = g1.locals 0 ∧ g.locals 1 = g1.locals 1 ∧ g.locals 2 = g1.locals 2 ∧
    g.net = g1.net

instance (g g1 : Global) : Decidable (agree g g1) := by
  unfold agree; infer_instance

/-- Rank 1 can take no step in `g`: it cannot move on by itself and no packet in
flight is addressed to it. -/
def rank_one_blocked (g : Global) : Bool :=
  (step 1 .tick (g.locals 1)).isNone && g.net.all (fun p => decide (p.dest ≠ 1))

/-- What is checked at position `n` of the infinite schedule: the move is a possible
step and, after the prefix, rank 1 is in its receive loop for fork 1 and blocked. -/
def starve_check (n : Nat) (g : Global) : Bool :=
  enabled 3 g (starve_move n) &&
    (decide (n < 50) || (decide ((g.locals 1).phase = .wait 0) && rank_one_blocked g))

/-! ## Predicates for the routing of grants -/

/-- Rank `k` is blocked in the hungry receive loop for fork `f`: it stands at
`while(my_forks[i].owner != k)` for a slot `i` that carries fork `f` and is not held. -/
def waiting (l : Local) (k f : Int) : Prop :=
  ∃ i : Nat, l.phase = .wait i ∧ (l.data.forks.get i).id = f ∧ (l.data.forks.get i).owner ≠ k

end DrinkingPhil

namespace Connect4

/-! Connect four (`lab2/code/connect4.cpp`): columns, board, `place`, `check_win`.

Conventions of the embedding:
* `unsigned int col` is a `Nat` kept below `2^32`; `int` positions and players are
  `Int`. Shift counts are `2*pos` with `pos` in `0..5` wherever the program shifts
  (`Board::set` validates first, `max_pos` and `check_win` only read valid cells).
* `Column cols[7]` is a function from the index to the column word; only the indices
  `0..6` are the array. `Board::place` evaluates `cols[xpos].max_pos()` before
  `Board::set` validates `xpos`: for `xpos` outside `0..6` that read is outside the
  array, which C++ leaves undefined, and the call fails with `Failure.out_of_bounds`.
* `throw GameException(...)` is `Except.error (Failure.thrown ...)`. -/

/-- The exception type `GameException`, carrying its message. -/
structure GameException where
  message : String
deriving DecidableEq, Repr

/-- How a call can fail: a thrown `GameException`, or a read of `cols[xpos]` outside
`Column cols[7]`, whose behaviour is undefined (the program may fault). -/
inductive Failure where
  | thrown (e : GameException)
  | out_of_bounds
deriving DecidableEq, Repr

/-- Constant `Board::R`. -/
def R : Int := 6

/-- Constant `Board::C`. -/
def C : Int := 7

/-- Macro `PLAYER`. -/
def PLAYER : Int := 1

/-- Macro `COMPUTER`. -/
def COMPUTER : Int := 2

/-- Method `Column::set`: `col = (col & ~(3 << 2*pos)) | (player << 2*pos)` on 32 bits. -/
def Column.set (col : Nat) (pos player : Int) : Nat :=
  ((col &&& (0xFFFFFFFF ^^^ (3 <<< (2 * pos).toNat))) |||
    (player.toNat <<< (2 * pos).toNat)) % 2 ^ 32

/-- Method `Column::get`: `(col >> 2*pos) & 3`. -/
def Column.get (col : Nat) (pos : Int) : Int :=
  (((col >>> (2 * pos).toNat) &&& 3 : Nat) : Int)

/-- The loop of `Column::max_pos` with `i` running from `n - 1` down to `0`. -/
def Column.max_pos_from (col : Nat) : Nat → Int
  | 0 => -1
  | n + 1 => if Column.get col n > 0 then n else Column.max_pos_from col n

/-- Method `Column::max_pos`: the loop starts at `i = 5`. -/
def Column.max_pos (col : Nat) : Int :=
  Column.max_pos_from col 6

/-- The board `struct Board`: the column words by index. -/
structure Board where
  cols : Int → Nat

/-- The board built by `Board()`: every `Column()` has `col = 0`. -/
def Board.empty : Board :=
  ⟨fun _ => 0⟩

/-- Static method `Board::valid_pos`. -/
def Board.valid_pos (xpos ypos : Int) : Bool :=
  decide (xpos ≥ 0) && decide (xpos < C) && decide (ypos ≥ 0) && decide (ypos < R)

/-- Method `Board::get`. -/
def Board.get (b : Board) (xpos ypos : Int) : Int :=
  Column.get (b.cols xpos) ypos

/-- Method `Board::set`: throws on an invalid position, else rewrites one column. -/
def Board.set (b : Board) (xpos ypos player : Int) : Except Failure Board :=
  if !Board.valid_pos xpos ypos then
    .error (.thrown ⟨"Invalid position!"⟩)
  else
    .ok ⟨Function.update b.cols xpos (Column.set (b.cols xpos) ypos player)⟩

/-- Table `dx` of `check_win`. -/
def dx : List Int := [-1, -1, -1, 0, 0, 1, 1, 1]

/-- Table `dy` of `check_win`. -/
def dy : List Int := [-1, 0, 1, -1, 1, -1, 0, 1]

/-- Table `pairs` of `check_win`: the two opposite directions of each line. -/
def pairs : List (Nat × Nat) := [(0, 7), (1, 6), (2, 5), (3, 4)]

/-- The inner `while` of `check_win` in direction `(dxk, dyk)` from `(x, y)`: the
number of iterations, at most `fuel`. -/
def Board.count_dir (b : Board) (init dxk dyk : Int) : Nat → Int → Int → Nat
  | 0, _, _ => 0
  | fuel + 1, x, y =>
    if Board.valid_pos x y && decide (b.get x y = init) then
      b.count_dir init dxk dyk fuel (x + dxk) (y + dyk) + 1
    else 0

/-- Entry `cnt[k]` after the first loop of `check_win`. -/
def Board.cnt (b : Board) (fuel : Nat) (xpos ypos : Int) (k : Nat) : Nat :=
  b.count_dir (b.get xpos ypos) (dx.getD k 0) (dy.getD k 0) fuel xpos ypos

/-- Method `Board::check_win` with every inner loop cut after `fuel` iterations. -/
def Board.check_win_fuel (fuel : Nat) (b : Board) (xpos ypos : Int) : Bool :=
  if b.get xpos ypos = 0 then false
  else pairs.any (fun pr => decide (b.cnt fuel xpos ypos pr.1 + b.cnt fuel xpos ypos pr.2 ≥ 5))

/-- Method `Board::check_win`; 8 iterations are more than any inner loop can make on
a board of 7 by 6 cells. -/
def Board.check_win (b : Board) (xpos ypos : Int) : Bool :=
  Board.check_win_fuel 8 b xpos ypos

/-- The unchecked read `cols[xpos]` at the start of `Board::place`. -/
def Board.col_at (b : Board) (xpos : Int) : Except Failure Nat :=
  if 0 ≤ xpos ∧ xpos < C then .ok (b.cols xpos) else .error .out_of_bounds

/-- Method `Board::place`: read `cols[xpos].max_pos()`, then `set`, then `check_win`. -/
def Board.place (b : Board) (xpos player : Int) : Except Failure (Board × Bool) :=
  match b.col_at xpos with
  | .error e => .error e
  | .ok col =>
    let ypos := Column.max_pos col + 1
    match b.set xpos ypos player with
    | .error e => .error e
    | .ok b1 => .ok (b1, b1.check_win xpos ypos)

/-- Outcome of the player's move loop of `master`: still waiting in `scanf` (inputs
used up), a move placed (new board, `over`, remaining inputs), or undefined
behaviour. -/
inductive MoveResult where
  | waiting
  | moved (b1 : Board) (over : Bool) (rest : List Int)
  | undefined

/-- The player's move loop of `master`: ask for a move until `place` accepts one; a
thrown `GameException` is caught and the loop asks again with the same board. -/
def player_move (b : Board) : List Int → MoveResult
  | [] => .waiting
  | move :: rest =>
    match b.place move PLAYER with
    | .ok (b1, over) => .moved b1 over rest
    | .error (.thrown _) => player_move b rest
    | .error .out_of_bounds => .undefined

/-- Boards obtained from the empty board by successful `place` calls of the two
players. -/
inductive Played : Board → Prop where
  | empty : Played Board.empty
  | place (b b1 : Board) (x p : Int) (w : Bool) :
      Played b → (p = PLAYER ∨ p = COMPUTER) → b.place x p = .ok (b1, w) → Played b1

/-- Column `x` of `b` is gap-free with height `h`: among rows `0..5` exactly the rows
below `h` are occupied. -/
def gap_free (b : Board) (x h : Int) : Prop :=
  0 ≤ h ∧ h ≤ 6 ∧ ∀ y : Int, 0 ≤ y → y < 6 → (b.get x y ≠ 0 ↔ y < h)

/-- The four lines through a cell: both diagonals, horizontal, vertical (second
entries of `pairs`). -/
def lines : List (Int × Int) := [(1, 1), (1, 0), (1, -1), (0, 1)]

/-- Cells `(x + t*ldx, y + t*ldy)` for `-a <= t <= c` are all on the board and hold
`p`: a run of `a + c + 1` contiguous cells through `(x, y)`. -/
def in_run (b : Board) (p x y ldx ldy : Int) (a c : Nat) : Prop :=
  ∀ t : Int, -(a : Int) ≤ t → t ≤ c →
    Board.valid_pos (x + t * ldx) (y + t * ldy) = true ∧ b.get (x + t * ldx) (y + t * ldy) = p

/-- The run `-a..c` through `(x, y)` on the line `(ldx, ldy)` is maximal: the cells
just before and just after it are off the board or do not hold `p`. -/
def max_run (b : Board) (p x y ldx ldy : Int) (a c : Nat) : Prop :=
  in_run b p x y ldx ldy a c ∧
    ¬ (Board.valid_pos (x + (-(a : Int) - 1) * ldx) (y + (-(a : Int) - 1) * ldy) = true ∧
        b.get (x + (-(a : Int) - 1) * ldx) (y + (-(a : Int) - 1) * ldy) = p) ∧
    ¬ (Board.valid_pos (x + ((c : Int) + 1) * ldx) (y + ((c : Int) + 1) * ldy) = true ∧
        b.get (x + ((c : Int) + 1) * ldx) (y + ((c : Int) + 1) * ldy) = p)

/-- A board with the mark of player 1 in row 0 of columns 0 to 3. -/
def four_in_row : Board :=
  ⟨fun x => if 0 ≤ x ∧ x < 4 then 1 else 0⟩

/-! ## Position keys -/

/-- The key `struct PositionKey`: `int pos[MAX_BRANCH_PATH]` (indices `0..4`; the
comparison loops read index `i` only for `i < len`, so with `len <= 5` they stay
inside the array) and `int len`. -/
structure PositionKey where
  pos : Nat → Int
  len : Int

/-- The `for` loop of `operator <` from index `i` with `n` iterations left. -/
def PositionKey.lt_loop (a b : Nat → Int) : Nat → Nat → Bool
  | 0, _ => false
  | n + 1, i => if a i ≠ b i then decide (a i < b i) else PositionKey.lt_loop a b n (i + 1)

/-- The `for` loop of `operator ==` from index `i` with `n` iterations left. -/
def PositionKey.eq_loop (a b : Nat → Int) : Nat → Nat → Bool
  | 0, _ => true
  | n + 1, i => if a i ≠ b i then false else PositionKey.eq_loop a b n (i + 1)

/-- Method `PositionKey::operator <`. -/
def PositionKey.lt (a pk : PositionKey) : Bool :=
  if a.len = pk.len then PositionKey.lt_loop a.pos pk.pos a.len.toNat 0
  else decide (a.len < pk.len)

/-- Method `PositionKey::operator ==`. -/
def PositionKey.eq (a pk : PositionKey) : Bool :=
  if a.len = pk.len then PositionKey.eq_loop a.pos pk.pos a.len.toNat 0
  else false

/-- Keys `a` and `a1` have the same length and the same first `len` entries. -/
def PositionKey.same (a a1 : PositionKey) : Prop :=
  a.len = a1.len ∧ ∀ i : Nat, (i : Int) < a.len → a.pos i = a1.pos i

/-- The key `[3]`, unused entries 0. -/
def key_a : PositionKey :=
  ⟨fun i => if i = 0 then 3 else 0, 1⟩

/-- The key `[3]` again, unused entries 77. -/
def key_a1 : PositionKey :=
  ⟨fun i => if i = 0 then 3 else 77, 1⟩

/-- The key `[3, 1]`. -/
def key_b : PositionKey :=
  ⟨fun i => if i = 0 then 3 else if i = 1 then 1 else 0, 2⟩

/-- The key `[4, 9]`. -/
def key_c : PositionKey :=
  ⟨fun i => if i = 0 then 4 else 9, 2⟩

end Connect4

namespace DrinkingPhil

/-! ## Handlers: frame lemmas -/

theorem get_set_same (fs : Forks) (i : Nat) (f : Fork) : (fs.set i f).get i = f := by
  unfold Forks.get Forks.set
  by_cases h : i = 0 <;> simp [h]

theorem get_set_other (fs : Forks) (i : Nat) (f : Fork) (hi : i < 2) :
    (fs.set i f).get (1 - i) = fs.get (1 - i) := by
  have h : i = 0 ∨ i = 1 := by omega
  rcases h with h | h <;> subst h <;> simp [Forks.get, Forks.set]

theorem other_id_ne (fs : Forks) (i : Nat) (hi : i < 2) (hdist : fs.f0.id ≠ fs.f1.id) :
    (fs.get (1 - i)).id ≠ (fs.get i).id := by
  have h : i = 0 ∨ i = 1 := by omega
  rcases h with h | h <;> subst h <;> simp [Forks.get]
  · exact fun h => hdist h.symm
  · exact hdist

/-- C1. Request handler, dirty case: when rank `k` receives a message for fork
`msg.id`, its table (two records with different ids) has that fork at slot `i`, held
by `k` and dirty, then `parse_request` rewrites that record to owner = requester,
clean, alt_owner = `k`, sends exactly one packet, the grant `(msg.id, k, FORK_RESPONSE)`
addressed to the requester, and leaves the other record and the deferred stack alone. -/
theorem parse_request_dirty_grants (k : Int) (msg : ForkMessage) (s : Proc) (i : Nat)
    (hi : i < 2) (hdist : s.forks.f0.id ≠ s.forks.f1.id)
    (hid : (s.forks.get i).id = msg.id) (hown : (s.forks.get i).owner = k)
    (hdirty : (s.forks.get i).clean = false) :
    (parse_request msg s k).forks.get i
        = { id := msg.id, clean := true, owner := msg.sender, alt_owner := k } ∧
      (parse_request msg s k).sent
        = s.sent ++ [⟨msg.sender, ⟨msg.id, k, FORK_RESPONSE⟩⟩] ∧
      (parse_request msg s k).forks.get (1 - i) = s.forks.get (1 - i) ∧
      (parse_request msg s k).requests = s.requests := by
  have h : i = 0 ∨ i = 1 := by omega
  have hne := other_id_ne s.forks i hi hdist
  rw [hid] at hne
  rcases h with h | h <;> subst h
  · simp only [Forks.get, if_true] at hid hown hdirty
    simp [Forks.get] at hne
    simp [parse_request, parse_request_at, Forks.get, Forks.set, hid, hown, hdirty, hne]
  · simp [Forks.get] at hid hown hdirty hne
    simp [parse_request, parse_request_at, Forks.get, Forks.set, hid, hown, hdirty, hne]

/-- Witness for C1: rank 0 of a ring of 3 holds fork 0 dirty at start-up and is asked
for it by rank 2. -/
theorem parse_request_dirty_grants_witness :
    (parse_request ⟨0, 2, FORK_REQUEST⟩ (init_proc 3 0) 0).forks.get 0
        = { id := 0, clean := true, owner := 2, alt_owner := 0 } ∧
      (parse_request ⟨0, 2, FORK_REQUEST⟩ (init_proc 3 0) 0).sent
        = [] ++ [⟨2, ⟨0, 0, FORK_RESPONSE⟩⟩] ∧
      (parse_request ⟨0, 2, FORK_REQUEST⟩ (init_proc 3 0) 0).forks.get (1 - 0)
        = (init_proc 3 0).forks.get (1 - 0) ∧
      (parse_request ⟨0, 2, FORK_REQUEST⟩ (init_proc 3 0) 0).requests = [] :=
  parse_request_dirty_grants 0 ⟨0, 2, FORK_REQUEST⟩ (init_proc 3 0) 0
    (by decide) (by decide) (by decide) (by decide) (by decide)


/-- C2. Request handler, deferral cases: when rank `k` receives a message for the fork
at slot `i` of its table (two records with different ids) and either does not hold
that fork, or holds it clean, then `parse_request` pushes exactly that message on the
deferred stack, sends nothing and leaves both fork records unchanged. -/
theorem parse_request_defers (k : Int) (msg : ForkMessage) (s : Proc) (i : Nat)
    (hi : i < 2) (hdist : s.forks.f0.id ≠ s.forks.f1.id)
    (hid : (s.forks.get i).id = msg.id)
    (hcase : (s.forks.get i).owner ≠ k ∨
      ((s.forks.get i).owner = k ∧ (s.forks.get i).clean = true)) :
    (parse_request msg s k).requests = msg :: s.requests ∧
      (parse_request msg s k).sent = s.sent ∧
      (parse_request msg s k).forks = s.forks := by
  have h : i = 0 ∨ i = 1 := by omega
  have hne := other_id_ne s.forks i hi hdist
  rw [hid] at hne
  rcases h with h | h <;> subst h
  · simp only [Forks.get, if_true] at hid hcase
    simp [Forks.get] at hne
    rcases hcase with hc | ⟨hc, hcl⟩ <;>
      simp [parse_request, parse_request_at, Forks.get, hid, hc, hne, *]
  · simp [Forks.get] at hid hcase hne
    rcases hcase with hc | ⟨hc, hcl⟩ <;>
      simp [parse_request, parse_request_at, Forks.get, hid, hc, hne, *]

/-- Witness for C2: rank 1 of a ring of 3 does not hold fork 1 at start-up and is
asked for it by rank 0. -/
theorem parse_request_defers_witness :
    (parse_request ⟨1, 0, FORK_REQUEST⟩ (init_proc 3 1) 1).requests
        = ⟨1, 0, FORK_REQUEST⟩ :: [] ∧
      (parse_request ⟨1, 0, FORK_REQUEST⟩ (init_proc 3 1) 1).sent = [] ∧
      (parse_request ⟨1, 0, FORK_REQUEST⟩ (init_proc 3 1) 1).forks = init_forks 3 1 :=
  parse_request_defers 1 ⟨1, 0, FORK_REQUEST⟩ (init_proc 3 1) 0
    (by decide) (by decide) (by decide) (Or.inl (by decide))

/-- C3. Response handler: when rank `k` receives a grant for the fork at slot `i` of
its table (two records with different ids), `parse_response` leaves that record with
owner = `k`, clean, alt_owner = sender, and the other record as it was; the call does
not touch the deferred stack nor send anything. -/
theorem parse_response_takes_fork (k : Int) (msg : ForkMessage) (s : Proc) (i : Nat)
    (hi : i < 2) (hdist : s.forks.f0.id ≠ s.forks.f1.id)
    (hid : (s.forks.get i).id = msg.id) :
    (parse_response msg s.forks k).get i
        = { id := msg.id, clean := true, owner := k, alt_owner := msg.sender } ∧
      (parse_response msg s.forks k).get (1 - i) = s.forks.get (1 - i) ∧
      (apply_response msg s k).forks = parse_response msg s.forks k ∧
      (apply_response msg s k).requests = s.requests ∧
      (apply_response msg s k).sent = s.sent := by
  have h : i = 0 ∨ i = 1 := by omega
  have hne := other_id_ne s.forks i hi hdist
  rw [hid] at hne
  rcases h with h | h <;> subst h
  · simp only [Forks.get, if_true] at hid
    simp [Forks.get] at hne
    simp [apply_response, parse_response, parse_response_at, Forks.get, Forks.set, hid, hne]
  · simp [Forks.get] at hid hne
    simp [apply_response, parse_response, parse_response_at, Forks.get, Forks.set, hid, hne]

/-- Witness for C3: rank 1 of a ring of 3 is granted fork 1 by rank 0. -/
theorem parse_response_takes_fork_witness :
    (parse_response ⟨1, 0, FORK_RESPONSE⟩ (init_proc 3 1).forks 1).get 0
        = { id := 1, clean := true, owner := 1, alt_owner := 0 } ∧
      (parse_response ⟨1, 0, FORK_RESPONSE⟩ (init_proc 3 1).forks 1).get (1 - 0)
        = (init_proc 3 1).forks.get (1 - 0) ∧
      (apply_response ⟨1, 0, FORK_RESPONSE⟩ (init_proc 3 1) 1).forks
        = parse_response ⟨1, 0, FORK_RESPONSE⟩ (init_proc 3 1).forks 1 ∧
      (apply_response ⟨1, 0, FORK_RESPONSE⟩ (init_proc 3 1) 1).requests = [] ∧
      (apply_response ⟨1, 0, FORK_RESPONSE⟩ (init_proc 3 1) 1).sent = [] :=
  parse_response_takes_fork 1 ⟨1, 0, FORK_RESPONSE⟩ (init_proc 3 1) 0
    (by decide) (by decide) (by decide)


/-! ## The acquisition loop -/

theorem scan_inv_step (k : Int) (e : Event) (l l1 : Local)
    (hinv : scan_inv k l) (hstep : step k e l = some l1) : scan_inv k l1 := by
  obtain ⟨ph, d⟩ := l
  cases ph with
  | think =>
    cases e <;> simp [step] at hstep <;> subst hstep <;> simp [scan_inv]
  | scan i b =>
    cases e with
    | recv m => simp [step] at hstep
    | tick =>
      simp only [step] at hstep
      by_cases hi : i < 2
      · rw [if_pos hi] at hstep
        by_cases ho : (d.forks.get i).owner ≠ k
        · rw [if_pos ho] at hstep
          simp at hstep; subst hstep; simp [scan_inv]
        · rw [if_neg ho] at hstep
          simp at hstep; subst hstep
          simp only [not_not] at ho
          cases b with
          | false => simp [scan_inv]
          | true =>
            simp only [scan_inv] at hinv ⊢
            have h : i = 0 ∨ i = 1 := by omega
            rcases h with h | h <;> subst h <;> simp [Forks.get] at ho
            · exact ⟨fun _ => ho, fun h => absurd h (by decide)⟩
            · exact ⟨fun _ => hinv.1 (by decide), fun _ => ho⟩
      · rw [if_neg hi] at hstep
        cases b with
        | false => simp at hstep; subst hstep; simp [scan_inv]
        | true =>
          simp at hstep; subst hstep
          simp only [scan_inv] at hinv ⊢
          exact ⟨hinv.1 (by omega), hinv.2 (by omega)⟩
  | wait i =>
    cases e with
    | recv m =>
      simp only [step] at hstep
      split at hstep
      · simp at hstep; subst hstep; simp [scan_inv]
      · simp at hstep
    | tick =>
      simp only [step] at hstep
      split at hstep
      · simp at hstep
      · simp at hstep; subst hstep; simp [scan_inv]
  | eat =>
    cases e <;> simp [step] at hstep
    subst hstep; simp [scan_inv]
  | release =>
    cases e with
    | recv m => simp [step] at hstep
    | tick =>
      simp only [step] at hstep
      split at hstep <;> simp at hstep <;> subst hstep <;> simp [scan_inv]

theorem scan_inv_run (k : Int) (evs : List Event) :
    ∀ l l1 : Local, scan_inv k l → run k evs l = some l1 → scan_inv k l1 := by
  induction evs with
  | nil => intro l l1 hinv hrun; simp [run] at hrun; subst hrun; exact hinv
  | cons e es ih =>
    intro l l1 hinv hrun
    simp only [run] at hrun
    cases hs : step k e l with
    | none => rw [hs] at hrun; simp at hrun
    | some l2 =>
      rw [hs] at hrun
      exact ih l2 l1 (scan_inv_step k e l l2 hinv hs) hrun

/-- C4. Eating requires both forks: let a process of rank `k` start thinking or start
its acquisition loop (`has_all = true`, `i = 0`) with any fork table and any deferred
stack, and let it run along any schedule of received messages and own moves; whenever
it stands at the entry of EATING, both of its fork records have owner = `k`. -/
theorem eating_requires_both_forks (k : Int) (evs : List Event) (l0 l : Local)
    (hstart : l0.phase = .think ∨ l0.phase = .scan 0 true)
    (hrun : run k evs l0 = some l) (heat : l.phase = .eat) :
    l.data.forks.f0.owner = k ∧ l.data.forks.f1.owner = k := by
  have h0 : scan_inv k l0 := by
    rcases hstart with h | h <;> simp [scan_inv, h]
  have h1 := scan_inv_run k evs l0 l h0 hrun
  simpa [scan_inv, heat] using h1

/-- Witness for C4: rank 1 of a ring of 3 starts hungry holding fork 2 dirty, asks
rank 0 for fork 1, gives fork 2 away to rank 2 while it waits, gets fork 1, asks for
fork 2 back, gets it, re-scans and enters EATING holding both (the last two
conjuncts are the owner fields of the final state compared with the rank 1). -/
theorem eating_requires_both_forks_witness :
    run 1
        [.tick, .recv ⟨2, 2, FORK_REQUEST⟩, .recv ⟨1, 0, FORK_RESPONSE⟩, .tick, .tick,
          .recv ⟨2, 2, FORK_RESPONSE⟩, .tick, .tick, .tick, .tick, .tick]
        ⟨.scan 0 true, init_proc 3 1⟩
      = some ⟨.eat, ⟨⟨⟨1, true, 1, 0⟩, ⟨2, true, 1, 2⟩⟩, [],
          [⟨0, ⟨1, 1, FORK_REQUEST⟩⟩, ⟨2, ⟨2, 1, FORK_RESPONSE⟩⟩,
            ⟨2, ⟨2, 1, FORK_REQUEST⟩⟩]⟩⟩ ∧
      (1 : Int) = 1 ∧ (1 : Int) = 1 :=
  ⟨by decide,
    eating_requires_both_forks 1
      [.tick, .recv ⟨2, 2, FORK_REQUEST⟩, .recv ⟨1, 0, FORK_RESPONSE⟩, .tick, .tick,
        .recv ⟨2, 2, FORK_RESPONSE⟩, .tick, .tick, .tick, .tick, .tick]
      ⟨.scan 0 true, init_proc 3 1⟩
      ⟨.eat, ⟨⟨⟨1, true, 1, 0⟩, ⟨2, true, 1, 2⟩⟩, [],
          [⟨0, ⟨1, 1, FORK_REQUEST⟩⟩, ⟨2, ⟨2, 1, FORK_RESPONSE⟩⟩,
            ⟨2, ⟨2, 1, FORK_REQUEST⟩⟩]⟩⟩
      (Or.inr rfl) (by decide) rfl⟩


/-! ## Release after eating -/

/-- C5 (the code at a failing input). Rank 0 of a ring of 3 runs from start-up: it
grants fork 1 to rank 1 while thinking, gets hungry, asks for fork 1 back, grants
fork 0 to rank 2 while waiting, receives fork 1, asks for fork 0 back, defers a new
request of rank 1 for the clean fork 1, receives fork 0, eats and releases. The last
packet it sends, the answer to the deferred request, carries the tag `FORK_REQUEST`,
and its record of fork 1 still names rank 0 as owner. -/
theorem release_sends_request_tag :
    run 0
        [.recv ⟨1, 1, FORK_REQUEST⟩, .tick, .tick, .tick, .recv ⟨0, 2, FORK_REQUEST⟩,
          .recv ⟨1, 1, FORK_RESPONSE⟩, .tick, .tick, .tick, .recv ⟨1, 1, FORK_REQUEST⟩,
          .recv ⟨0, 2, FORK_RESPONSE⟩, .tick, .tick, .tick, .tick, .tick, .tick,
          .tick, .tick, .tick]
        ⟨.think, init_proc 3 0⟩
      = some ⟨.think,
          ⟨⟨⟨0, false, 0, 2⟩, ⟨1, false, 0, 1⟩⟩, [],
            [⟨1, ⟨1, 0, FORK_RESPONSE⟩⟩, ⟨1, ⟨1, 0, FORK_REQUEST⟩⟩,
              ⟨2, ⟨0, 0, FORK_RESPONSE⟩⟩, ⟨2, ⟨0, 0, FORK_REQUEST⟩⟩,
              ⟨1, ⟨1, 0, FORK_REQUEST⟩⟩]⟩⟩ := by
  decide


/-! ## The initial fork table -/

theorem init_forks_ids_distinct (N k : Int) :
    (init_forks N k).f0.id ≠ (init_forks N k).f1.id := by
  unfold init_forks
  split_ifs with h0 h1
  · simp
  · simp; omega
  · simp

theorem init_missing_owner_lt (N k : Int) (hk0 : 0 ≤ k) (hk : k < N) (i : Nat)
    (hmiss : ((init_forks N k).get i).owner ≠ k) :
    0 ≤ ((init_forks N k).get i).owner ∧ ((init_forks N k).get i).owner < k ∧
      (((init_forks N k).get i).owner = k - 1 ∨ ((init_forks N k).get i).owner = 0) := by
  unfold init_forks Forks.get at *
  split_ifs at hmiss ⊢ <;> simp at hmiss ⊢ <;> omega

theorem waits_for_lt (N j k : Int) (h : waits_for N j k) : 0 ≤ j ∧ j < k := by
  obtain ⟨hk0, hk, h | h⟩ := h
  · have := init_missing_owner_lt N k hk0 hk 0 (by simpa [Forks.get] using h.1)
    simp only [Forks.get, if_true] at this
    rw [h.2] at this
    exact ⟨this.1, this.2.1⟩
  · have := init_missing_owner_lt N k hk0 hk 1 (by simpa [Forks.get] using h.1)
    simp [Forks.get] at this
    rw [h.2] at this
    exact ⟨this.1, this.2.1⟩

theorem waits_for_wf (N : Int) : WellFounded (waits_for N) := by
  refine Subrelation.wf ?_ (InvImage.wf Int.toNat Nat.lt_wfRel.wf)
  intro j k h
  have := waits_for_lt N j k h
  show j.toNat < k.toNat
  omega

/-- C6. Acyclic initial orientation: in a ring of `N` ranks (`N >= 1` as soon as some
rank exists), every fork that rank `k` in `0..N-1` does not hold in its initial table is recorded as held by a rank
that is in range, strictly smaller than `k`, and equal to `k - 1` or `0`; hence the
initial waits-for relation is well-founded and no rank waits (transitively) for
itself. -/
theorem init_orientation_acyclic (N k : Int) (hk0 : 0 ≤ k) (hk : k < N) :
    (∀ i : Nat, i < 2 → ((init_forks N k).get i).owner ≠ k →
      0 ≤ ((init_forks N k).get i).owner ∧ ((init_forks N k).get i).owner < k ∧
        (((init_forks N k).get i).owner = k - 1 ∨ ((init_forks N k).get i).owner = 0)) ∧
      WellFounded (waits_for N) ∧
      ∀ j : Int, ¬ Relation.TransGen (waits_for N) j j := by
  refine ⟨fun i _ hmiss => init_missing_owner_lt N k hk0 hk i hmiss, waits_for_wf N, ?_⟩
  intro j hj
  have hwf := (waits_for_wf N).transGen
  exact (hwf.isIrrefl).irrefl j hj

/-- Witness for C6: the last rank of a ring of 3 holds neither fork initially; they
are recorded at ranks 1 and 0. -/
theorem init_orientation_acyclic_witness :
    (∀ i : Nat, i < 2 → ((init_forks 3 2).get i).owner ≠ 2 →
      0 ≤ ((init_forks 3 2).get i).owner ∧ ((init_forks 3 2).get i).owner < 2 ∧
        (((init_forks 3 2).get i).owner = 2 - 1 ∨ ((init_forks 3 2).get i).owner = 0)) ∧
      WellFounded (waits_for 3) ∧
      ∀ j : Int, ¬ Relation.TransGen (waits_for 3) j j :=
  init_orientation_acyclic 3 2 (by decide) (by decide)


theorem init_has_record_iff (N f k : Int) (hN : 2 ≤ N) (hf0 : 0 ≤ f) (hf : f < N)
    (hk0 : 0 ≤ k) (hk : k < N) :
    has_record (init_forks N k) f ↔ (k = f ∨ k = ring_pred N f) := by
  unfold has_record init_forks ring_pred
  split_ifs <;> simp <;> omega

theorem record_of_some (fs : Forks) (f : Int) (h : has_record fs f) :
    ∃ r, record_of fs f = some r := by
  unfold record_of
  by_cases h0 : fs.f0.id = f
  · exact ⟨fs.f0, by simp [h0]⟩
  · rcases h with h | h
    · exact absurd h h0
    · exact ⟨fs.f1, by simp [h0, h]⟩

theorem init_record_owner (N f k : Int) (hN : 2 ≤ N) (_hf0 : 0 ≤ f) (_hf : f < N)
    (hk0 : 0 ≤ k) (hk : k < N) (r : Fork) (hr : record_of (init_forks N k) f = some r) :
    r.owner = (if f = 0 then 0 else f - 1) := by
  unfold record_of init_forks at hr
  split_ifs at hr ⊢ <;> simp at hr <;> subst hr <;> simp at * <;> omega

theorem init_holds_iff (N f k : Int) (hN : 2 ≤ N) (_hf0 : 0 ≤ f) (hf : f < N)
    (hk0 : 0 ≤ k) (hk : k < N) :
    holds (init_forks N k) k f ↔ k = (if f = 0 then 0 else f - 1) := by
  unfold holds init_forks
  split_ifs <;> simp <;> omega

/-- C7. Consistent initial fork table: in a ring of `N >= 2` ranks, fork `f` in
`0..N-1` has a record exactly at the two ranks `f` and its ring predecessor (`f - 1`,
or `N - 1` for `f = 0`), which are different ranks in range; every rank `k` has two
records with different ids, fork `k` (shared with its predecessor) and the fork of its
ring successor; all records of `f` name the same owner, which is `f` or its
predecessor; and exactly one rank holds `f`. -/
theorem init_table_consistent (N f : Int) (hN : 2 ≤ N) (hf0 : 0 ≤ f) (hf : f < N) :
    (∀ k : Int, 0 ≤ k → k < N →
      (has_record (init_forks N k) f ↔ (k = f ∨ k = ring_pred N f))) ∧
      (ring_pred N f ≠ f ∧ 0 ≤ ring_pred N f ∧ ring_pred N f < N ∧
        ring_pred N f = (if 1 ≤ f then f - 1 else N - 1)) ∧
      (∀ k : Int, 0 ≤ k → k < N →
        (init_forks N k).f0.id ≠ (init_forks N k).f1.id ∧
        has_record (init_forks N k) k ∧ has_record (init_forks N k) (ring_succ N k) ∧
        has_record (init_forks N (ring_pred N k)) k ∧
        has_record (init_forks N (ring_succ N k)) (ring_succ N k)) ∧
      (∃ o : Int, (o = f ∨ o = ring_pred N f) ∧
        (∃ r, record_of (init_forks N f) f = some r ∧ r.owner = o) ∧
        (∃ r, record_of (init_forks N (ring_pred N f)) f = some r ∧ r.owner = o) ∧
        ∀ k : Int, 0 ≤ k → k < N → ∀ r, record_of (init_forks N k) f = some r →
          r.owner = o) ∧
      (∃! k : Int, 0 ≤ k ∧ k < N ∧ holds (init_forks N k) k f) := by
  refine ⟨fun k hk0 hk => init_has_record_iff N f k hN hf0 hf hk0 hk, ?_, ?_, ?_, ?_⟩
  · unfold ring_pred; split_ifs <;> omega
  · intro k hk0 hk
    refine ⟨init_forks_ids_distinct N k, ?_, ?_, ?_, ?_⟩
    · unfold has_record init_forks; split_ifs <;> simp <;> omega
    · unfold has_record init_forks ring_succ
      split_ifs
      all_goals simp
      all_goals omega
    · unfold has_record init_forks ring_pred; split_ifs <;> simp <;> omega
    · unfold has_record init_forks ring_succ; split_ifs <;> simp <;> omega
  · refine ⟨if f = 0 then 0 else f - 1, ?_, ?_, ?_, ?_⟩
    · unfold ring_pred; split_ifs <;> omega
    · obtain ⟨r, hr⟩ := record_of_some (init_forks N f) f
        ((init_has_record_iff N f f hN hf0 hf hf0 hf).2 (Or.inl rfl))
      exact ⟨r, hr, init_record_owner N f f hN hf0 hf hf0 hf r hr⟩
    · have hp : 0 ≤ ring_pred N f ∧ ring_pred N f < N := by
        unfold ring_pred; split_ifs <;> omega
      obtain ⟨r, hr⟩ := record_of_some (init_forks N (ring_pred N f)) f
        ((init_has_record_iff N f _ hN hf0 hf hp.1 hp.2).2 (Or.inr rfl))
      exact ⟨r, hr, init_record_owner N f _ hN hf0 hf hp.1 hp.2 r hr⟩
    · intro k hk0 hk r hr
      exact init_record_owner N f k hN hf0 hf hk0 hk r hr
  · refine ⟨if f = 0 then 0 else f - 1, ⟨?_, ?_, ?_⟩, ?_⟩
    · split_ifs <;> omega
    · split_ifs <;> omega
    · exact (init_holds_iff N f _ hN hf0 hf (by split_ifs <;> omega)
        (by split_ifs <;> omega)).2 rfl
    · rintro k ⟨hk0, hk, hh⟩
      exact (init_holds_iff N f k hN hf0 hf hk0 hk).1 hh


/-- Witness for C7: fork 0 of a ring of 3 is shared by ranks 0 and 2 and held by 0. -/
theorem init_table_consistent_witness :
    (∀ k : Int, 0 ≤ k → k < 3 →
      (has_record (init_forks 3 k) 0 ↔ (k = 0 ∨ k = ring_pred 3 0))) ∧
      (ring_pred 3 0 ≠ 0 ∧ 0 ≤ ring_pred 3 0 ∧ ring_pred 3 0 < 3 ∧
        ring_pred 3 0 = (if (1 : Int) ≤ 0 then 0 - 1 else 3 - 1)) ∧
      (∀ k : Int, 0 ≤ k → k < 3 →
        (init_forks 3 k).f0.id ≠ (init_forks 3 k).f1.id ∧
        has_record (init_forks 3 k) k ∧ has_record (init_forks 3 k) (ring_succ 3 k) ∧
        has_record (init_forks 3 (ring_pred 3 k)) k ∧
        has_record (init_forks 3 (ring_succ 3 k)) (ring_succ 3 k)) ∧
      (∃ o : Int, (o = 0 ∨ o = ring_pred 3 0) ∧
        (∃ r, record_of (init_forks 3 0) 0 = some r ∧ r.owner = o) ∧
        (∃ r, record_of (init_forks 3 (ring_pred 3 0)) 0 = some r ∧ r.owner = o) ∧
        ∀ k : Int, 0 ≤ k → k < 3 → ∀ r, record_of (init_forks 3 k) 0 = some r →
          r.owner = o) ∧
      (∃! k : Int, 0 ≤ k ∧ k < 3 ∧ holds (init_forks 3 k) k 0) :=
  init_table_consistent 3 0 (by decide) (by decide) (by decide)


/-! ## Mutual exclusion in the N-process system -/

theorem parse_request_cases (k : Int) (msg : ForkMessage) (s : Proc)
    (hdist : s.forks.f0.id ≠ s.forks.f1.id) :
    parse_request msg s k = s ∨
      parse_request msg s k = { s with requests := msg :: s.requests } ∨
      ∃ i : Nat, i < 2 ∧ (s.forks.get i).id = msg.id ∧ (s.forks.get i).owner = k ∧
        parse_request msg s k =
          { s with
            forks := s.forks.set i ⟨msg.id, true, msg.sender, k⟩
            sent := s.sent ++ [⟨msg.sender, ⟨msg.id, k, FORK_RESPONSE⟩⟩] } := by
  by_cases h0 : s.forks.f0.id = msg.id
  · have h1 : ¬ s.forks.f1.id = msg.id := fun h => hdist (h0.trans h.symm)
    by_cases ho : s.forks.f0.owner = k
    · cases hc : s.forks.f0.clean
      · right; right
        refine ⟨0, by decide, by simpa [Forks.get] using h0, by simpa [Forks.get] using ho, ?_⟩
        simp [parse_request, parse_request_at, Forks.get, Forks.set, h0, h1, ho, hc]
      · right; left
        simp [parse_request, parse_request_at, Forks.get, h0, h1, ho, hc]
    · right; left
      simp [parse_request, parse_request_at, Forks.get, h0, h1, ho]
  · by_cases h1 : s.forks.f1.id = msg.id
    · by_cases ho : s.forks.f1.owner = k
      · cases hc : s.forks.f1.clean
        · right; right
          refine ⟨1, by decide, by simpa [Forks.get] using h1,
            by simpa [Forks.get] using ho, ?_⟩
          simp [parse_request, parse_request_at, Forks.get, Forks.set, h0, h1, ho, hc]
        · right; left
          simp [parse_request, parse_request_at, Forks.get, h0, h1, ho, hc]
      · right; left
        simp [parse_request, parse_request_at, Forks.get, h0, h1, ho]
    · left
      simp [parse_request, parse_request_at, Forks.get, h0, h1]

theorem parse_request_ids (k : Int) (m : ForkMessage) (s : Proc) :
    (parse_request m s k).forks.f0.id = s.forks.f0.id ∧
      (parse_request m s k).forks.f1.id = s.forks.f1.id := by
  unfold parse_request parse_request_at
  by_cases h0 : s.forks.f0.id = m.id <;> by_cases h1 : s.forks.f1.id = m.id <;>
    by_cases o0 : s.forks.f0.owner = k <;> by_cases o1 : s.forks.f1.owner = k <;>
    cases c0 : s.forks.f0.clean <;> cases c1 : s.forks.f1.clean <;>
    simp [Forks.get, Forks.set, h0, h1, o0, o1, c0, c1]

theorem parse_response_ids (k : Int) (msg : ForkMessage) (fs : Forks) :
    (parse_response msg fs k).f0.id = fs.f0.id ∧ (parse_response msg fs k).f1.id = fs.f1.id := by
  unfold parse_response parse_response_at
  by_cases h0 : fs.f0.id = msg.id <;> by_cases h1 : fs.f1.id = msg.id <;>
    simp [Forks.get, Forks.set, h0, h1]

theorem parse_response_gain (k : Int) (msg : ForkMessage) (fs : Forks) (f : Int)
    (h : holds (parse_response msg fs k) k f) : holds fs k f ∨ msg.id = f := by
  unfold parse_response parse_response_at holds at *
  by_cases h0 : fs.f0.id = msg.id <;> by_cases h1 : fs.f1.id = msg.id <;>
    simp [Forks.get, Forks.set, h0, h1] at h ⊢ <;> tauto


theorem grants_nil (f : Int) : grants f [] = 0 := rfl

theorem grants_append (f : Int) (a b : List Flight) :
    grants f (a ++ b) = grants f a + grants f b := by
  simp [grants, List.countP_append]

theorem grants_cons (f : Int) (p : Flight) (a : List Flight) :
    grants f (p :: a) = grants f a + (if is_grant f p.msg = true then 1 else 0) := by
  simp [grants, List.countP_cons]

theorem effect_quiet (k : Int) (e : Event) (l l1 : Local)
    (hid0 : l1.data.forks.f0.id = l.data.forks.f0.id)
    (hid1 : l1.data.forks.f1.id = l.data.forks.f1.id)
    (hholds : ∀ f : Int, holds l1.data.forks k f → holds l.data.forks k f)
    (hreq : ∀ r ∈ l1.data.requests, r ∈ l.data.requests)
    (hsent : ∀ q ∈ l1.data.sent, q.dest ≠ k ∧ q.msg.sender = k ∧ q.msg.type = FORK_REQUEST)
    (hdef : ∀ r ∈ l.data.requests, r.sender ≠ k) : StepEffect k e l l1 where
  id0 := hid0
  id1 := hid1
  out := fun q hq => ⟨(hsent q hq).1, (hsent q hq).2.1⟩
  deferred := fun r hr => hdef r (hreq r hr)
  gain := fun f h => Or.inl (hholds f h)
  give := by
    intro f
    left
    unfold grants emitted
    rw [List.countP_eq_zero]
    intro p hp
    simp only [List.mem_map] at hp
    obtain ⟨q, hq, rfl⟩ := hp
    have := (hsent q hq).2.2
    simp [is_grant, this, FORK_REQUEST, FORK_RESPONSE]

theorem effect_parse_request (k : Int) (m : ForkMessage) (s : Proc) (ph ph1 : Phase)
    (hs : s.sent = []) (hdist : s.forks.f0.id ≠ s.forks.f1.id) (hm : m.sender ≠ k)
    (hdef : ∀ r ∈ s.requests, r.sender ≠ k) :
    StepEffect k (.recv m) ⟨ph, s⟩ ⟨ph1, parse_request m s k⟩ := by
  rcases parse_request_cases k m s hdist with h | h | ⟨i, hi, hid, hown, h⟩
  · rw [h]
    exact effect_quiet k _ _ _ rfl rfl (fun _ h => h) (fun _ h => h)
      (by simp [hs]) hdef
  · rw [h]
    refine ⟨rfl, rfl, by simp [hs], ?_, fun _ h => Or.inl h, ?_⟩
    · intro r hr
      simp only [List.mem_cons] at hr
      rcases hr with rfl | hr
      · exact hm
      · exact hdef r hr
    · intro f; left; simp [emitted, hs, grants]
  · rw [h]
    have hi2 : i = 0 ∨ i = 1 := by omega
    have hne := other_id_ne s.forks i hi hdist
    rw [hid] at hne
    refine ⟨?_, ?_, ?_, hdef, ?_, ?_⟩
    · rcases hi2 with rfl | rfl <;> simp [Forks.set, Forks.get] at hid ⊢
      exact hid.symm
    · rcases hi2 with rfl | rfl <;> simp [Forks.set, Forks.get] at hid ⊢
      exact hid.symm
    · intro q hq
      simp [hs] at hq
      subst hq
      exact ⟨hm, rfl⟩
    · intro f hf
      left
      rcases hi2 with rfl | rfl <;> simp [holds, Forks.set, Forks.get] at hf hid hown ⊢
      · rcases hf with ⟨_, hf⟩ | hf
        · exact absurd hf hm
        · exact Or.inr hf
      · rcases hf with hf | ⟨_, hf⟩
        · exact Or.inl hf
        · exact absurd hf hm
    · intro f
      by_cases hf : m.id = f
      · right
        subst hf
        refine ⟨by simp [emitted, hs, grants, is_grant], ?_, ?_⟩
        · rcases hi2 with rfl | rfl <;> simp [holds, Forks.get] at hid hown ⊢
          · exact Or.inl ⟨hid, hown⟩
          · exact Or.inr ⟨hid, hown⟩
        · rcases hi2 with rfl | rfl <;>
            simp [holds, Forks.set, Forks.get] at hne ⊢
          · exact ⟨hm, fun h => absurd h hne⟩
          · exact ⟨fun h => absurd h hne, hm⟩
      · left
        simp [emitted, hs, grants, is_grant, hf]

theorem effect_apply_response (k : Int) (m : ForkMessage) (s : Proc) (ph ph1 : Phase)
    (hs : s.sent = []) (hty : m.type = FORK_RESPONSE)
    (hdef : ∀ r ∈ s.requests, r.sender ≠ k) :
    StepEffect k (.recv m) ⟨ph, s⟩ ⟨ph1, apply_response m s k⟩ := by
  refine ⟨(parse_response_ids k m s.forks).1, (parse_response_ids k m s.forks).2,
    by simp [apply_response, hs], hdef, ?_, ?_⟩
  · intro f hf
    rcases parse_response_gain k m s.forks f hf with h | h
    · exact Or.inl h
    · exact Or.inr ⟨m, rfl, by simp [is_grant, hty, h]⟩
  · intro f; left; simp [emitted, apply_response, hs, grants]


theorem eat_forks_holds (fs : Forks) (k f : Int) :
    holds (eat_forks fs) k f ↔ holds fs k f := by
  simp [holds, eat_forks, Forks.set, Forks.get]

theorem step_effect (k : Int) (e : Event) (l l1 : Local)
    (hs : l.data.sent = []) (hdist : l.data.forks.f0.id ≠ l.data.forks.f1.id)
    (hm : ∀ m, e = .recv m → m.sender ≠ k)
    (hdef : ∀ r ∈ l.data.requests, r.sender ≠ k)
    (hstep : step k e l = some l1) : StepEffect k e l l1 := by
  obtain ⟨ph, d⟩ := l
  simp only at hs hdist hdef
  cases ph with
  | think =>
    cases e with
    | recv m =>
      simp [step, recv_think] at hstep; subst hstep
      exact effect_parse_request k m d _ _ hs hdist (hm m rfl) hdef
    | tick =>
      simp [step] at hstep; subst hstep
      exact effect_quiet k _ _ _ rfl rfl (fun _ h => h) (fun _ h => h) (by simp [hs]) hdef
  | scan i b =>
    cases e with
    | recv m => simp [step] at hstep
    | tick =>
      simp only [step] at hstep
      split_ifs at hstep with h1 h2 h3 <;> simp at hstep <;> subst hstep
      · refine effect_quiet k _ _ _ rfl rfl (fun _ h => h) (fun _ h => h) ?_ hdef
        intro q hq
        simp [hs] at hq
        subst hq
        exact ⟨h2, rfl, rfl⟩
      · exact effect_quiet k _ _ _ rfl rfl (fun _ h => h) (fun _ h => h) (by simp [hs]) hdef
      · exact effect_quiet k _ _ _ rfl rfl (fun _ h => h) (fun _ h => h) (by simp [hs]) hdef
      · exact effect_quiet k _ _ _ rfl rfl (fun _ h => h) (fun _ h => h) (by simp [hs]) hdef
  | wait i =>
    cases e with
    | recv m =>
      simp only [step] at hstep
      split_ifs at hstep with h1
      simp at hstep; subst hstep
      unfold recv_hungry
      split_ifs with hty
      · exact effect_apply_response k m d _ _ hs hty hdef
      · exact effect_parse_request k m d _ _ hs hdist (hm m rfl) hdef
    | tick =>
      simp only [step] at hstep
      split_ifs at hstep with h1
      simp at hstep; subst hstep
      exact effect_quiet k _ _ _ rfl rfl (fun _ h => h) (fun _ h => h) (by simp [hs]) hdef
  | eat =>
    cases e with
    | recv m => simp [step] at hstep
    | tick =>
      simp [step] at hstep; subst hstep
      refine effect_quiet k _ _ _ ?_ ?_ (fun f h => (eat_forks_holds d.forks k f).1 h)
        (fun _ h => h) (by simp [hs]) hdef
      · simp [eat_forks, Forks.set, Forks.get]
      · simp [eat_forks, Forks.set, Forks.get]
  | release =>
    cases e with
    | recv m => simp [step] at hstep
    | tick =>
      simp only [step] at hstep
      split at hstep
      · simp at hstep; subst hstep
        exact effect_quiet k _ _ _ rfl rfl (fun _ h => h) (fun _ h => h) (by simp [hs]) hdef
      · rename_i top rest hreq
        simp at hstep; subst hstep
        refine effect_quiet k _ _ _ rfl rfl (fun _ h => h) ?_ ?_ hdef
        · intro r hr
          simp only [release_one] at hr
          rw [hreq]
          exact List.mem_cons_of_mem _ hr
        · intro q hq
          simp [release_one, hs] at hq
          subst hq
          exact ⟨hdef top (by rw [hreq]; exact List.mem_cons_self _ _), rfl, rfl⟩


theorem init_holds_rank (N f k : Int) (hk0 : 0 ≤ k)
    (h : holds (init_forks N k) k f) : k = (if f = 0 then 0 else f - 1) := by
  unfold holds init_forks at h
  split_ifs at h ⊢ <;> simp at h <;> omega

theorem sysinv_init (N : Int) : SysInv N (init_global N) where
  flushed := fun _ => rfl
  ids := fun k => init_forks_ids_distinct N k
  no_self := by intro p hp; simp [init_global] at hp
  deferred := by intro k r hr; simp [init_global, init_proc] at hr
  unique := by
    intro f j k hj0 hj hk0 hk h1 h2
    have e1 := init_holds_rank N f j hj0 h1
    have e2 := init_holds_rank N f k hk0 h2
    rw [e1, e2]
  held := fun _ _ _ _ _ => rfl
  single := fun _ => Nat.zero_le _

/-- One move of rank `k` with effect `StepEffect`, on a network from which at most the
received packet was removed, keeps the system invariant. -/
theorem sysinv_move (N : Int) (g : Global) (k : Int) (e : Event) (l1 : Local)
    (rest : List Flight) (hinv : SysInv N g) (hk0 : 0 ≤ k) (hk : k < N)
    (heff : StepEffect k e (g.locals k) l1)
    (hmem : ∀ p ∈ rest, p ∈ g.net)
    (hle : ∀ f : Int, grants f rest ≤ grants f g.net)
    (hrecv : ∀ (m : ForkMessage) (f : Int), e = .recv m → is_grant f m = true →
      grants f rest + 1 = grants f g.net) :
    SysInv N ⟨Function.update g.locals k (settle l1), rest ++ emitted k l1⟩ := by
  have hloc : ∀ j : Int, j ≠ k → Function.update g.locals k (settle l1) j = g.locals j :=
    fun j hj => Function.update_noteq hj _ _
  have hsF : (Function.update g.locals k (settle l1) k).data.forks = l1.data.forks := by
    rw [Function.update_same]; rfl
  have hsR : (Function.update g.locals k (settle l1) k).data.requests
      = l1.data.requests := by
    rw [Function.update_same]; rfl
  have hsS : (Function.update g.locals k (settle l1) k).data.sent = [] := by
    rw [Function.update_same]; rfl
  have hgain0 : ∀ f : Int, holds l1.data.forks k f → grants f rest = 0 := by
    intro f hf
    rcases heff.gain f hf with h | ⟨m, he, hg⟩
    · have := hinv.held f k hk0 hk h
      have := hle f
      omega
    · have := hrecv m f he hg
      have := hinv.single f
      omega
  have hgive0 : ∀ f j : Int, 0 ≤ j → j < N → j ≠ k → holds (g.locals j).data.forks j f →
      grants f (emitted k l1) = 0 := by
    intro f j hj0 hj hjk hf
    rcases heff.give f with h | ⟨_, h, _⟩
    · exact h
    · exact absurd (hinv.unique f j k hj0 hj hk0 hk hf h) hjk
  refine ⟨?_, ?_, ?_, ?_, ?_, ?_, ?_⟩
  · intro j
    by_cases hj : j = k
    · subst hj; exact hsS
    · simp only [hloc j hj]; exact hinv.flushed j
  · intro j
    by_cases hj : j = k
    · subst hj
      simp only [hsF]
      rw [heff.id0, heff.id1]
      exact hinv.ids j
    · simp only [hloc j hj]; exact hinv.ids j
  · intro p hp
    simp only [List.mem_append] at hp
    rcases hp with hp | hp
    · exact hinv.no_self p (hmem p hp)
    · simp only [emitted, List.mem_map] at hp
      obtain ⟨q, hq, rfl⟩ := hp
      have := heff.out q hq
      simp only
      rw [this.2]
      exact fun h => this.1 h.symm
  · intro j r hr
    by_cases hj : j = k
    · subst hj
      simp only [hsR] at hr
      exact heff.deferred r hr
    · simp only [hloc j hj] at hr; exact hinv.deferred j r hr
  · intro f j j1 hj0 hj hj10 hj1 h1 h2
    by_cases e1 : j = k
    · by_cases e2 : j1 = k
      · rw [e1, e2]
      · subst e1
        simp only [hsF] at h1
        simp only [hloc j1 e2] at h2
        have a := hinv.held f j1 hj10 hj1 h2
        rcases heff.gain f h1 with h | ⟨m, he, hg⟩
        · exact hinv.unique f j j1 hj0 hj hj10 hj1 h h2
        · have := hrecv m f he hg
          omega
    · by_cases e2 : j1 = k
      · subst e2
        simp only [hsF] at h2
        simp only [hloc j e1] at h1
        have a := hinv.held f j hj0 hj h1
        rcases heff.gain f h2 with h | ⟨m, he, hg⟩
        · exact hinv.unique f j j1 hj0 hj hj10 hj1 h1 h
        · have := hrecv m f he hg
          omega
      · simp only [hloc j e1] at h1
        simp only [hloc j1 e2] at h2
        exact hinv.unique f j j1 hj0 hj hj10 hj1 h1 h2
  · intro f j hj0 hj hf
    simp only [grants_append]
    by_cases e1 : j = k
    · subst e1
      simp only [hsF] at hf
      have a := hgain0 f hf
      rcases heff.give f with h | ⟨_, _, h⟩
      · omega
      · exact absurd hf h
    · simp only [hloc j e1] at hf
      have a := hinv.held f j hj0 hj hf
      have b := hle f
      have c := hgive0 f j hj0 hj e1 hf
      omega
  · intro f
    simp only [grants_append]
    have a := hinv.single f
    have b := hle f
    rcases heff.give f with h | ⟨h, hf, _⟩
    · omega
    · have c := hinv.held f k hk0 hk hf
      omega

theorem sysinv_step (N : Int) (g g1 : Global) (hinv : SysInv N g) (hstep : GStep N g g1) :
    SysInv N g1 := by
  cases hstep with
  | internal k l1 hk0 hk hs =>
    have heff := step_effect k .tick (g.locals k) l1 (hinv.flushed k) (hinv.ids k)
      (fun m h => by cases h) (hinv.deferred k) hs
    exact sysinv_move N g k .tick l1 g.net hinv hk0 hk heff (fun _ h => h)
      (fun _ => le_refl _) (fun m f h => by cases h)
  | deliver k pre post p l1 hk0 hk hnet hdest hfifo hs =>
    have hp : p ∈ g.net := by rw [hnet]; simp
    have hsender : p.msg.sender ≠ k := by
      have := hinv.no_self p hp
      rwa [hdest] at this
    have heff := step_effect k (.recv p.msg) (g.locals k) l1 (hinv.flushed k) (hinv.ids k)
      (fun m h => by cases h; exact hsender) (hinv.deferred k) hs
    refine sysinv_move N g k (.recv p.msg) l1 (pre ++ post) hinv hk0 hk heff ?_ ?_ ?_
    · intro q hq
      rw [hnet]
      simp only [List.mem_append, List.mem_cons] at hq ⊢
      tauto
    · intro f
      rw [hnet]
      simp only [grants_append, grants_cons]
      omega
    · intro m f he hg
      cases he
      rw [hnet]
      simp only [grants_append, grants_cons, hg, if_true]
      omega

theorem sysinv_reachable (N : Int) (g : Global) (h : Reachable N g) : SysInv N g := by
  induction h with
  | init => exact sysinv_init N
  | next g g1 _ hstep ih => exact sysinv_step N g g1 ih hstep

/-- C8. Safety (mutual exclusion on forks): in every state reachable from start-up in
the system of `N` ranks running the think / hungry / eat / release loop over per-pair
FIFO channels, no fork id is held (a record of it with owner = own rank) by two
different ranks in `0..N-1`. This holds for every ring size, in particular `N >= 2`. -/
theorem fork_mutual_exclusion (N : Int) (g : Global) (hreach : Reachable N g)
    (f j k : Int) (hj0 : 0 ≤ j) (hj : j < N) (hk0 : 0 ≤ k) (hk : k < N)
    (hjf : holds (g.locals j).data.forks j f) (hkf : holds (g.locals k).data.forks k f) :
    j = k :=
  (sysinv_reachable N g hreach).unique f j k hj0 hj hk0 hk hjf hkf


theorem split_first_spec (k : Int) (net pre post : List Flight) (p : Flight)
    (h : split_first k net = some (pre, p, post)) :
    net = pre ++ p :: post ∧ p.dest = k ∧ ∀ q ∈ pre, q.dest ≠ k := by
  induction net generalizing pre with
  | nil => simp [split_first] at h
  | cons a as ih =>
    simp only [split_first] at h
    split_ifs at h with ha
    · simp at h
      obtain ⟨rfl, rfl, rfl⟩ := h
      exact ⟨rfl, ha, by simp⟩
    · cases hs : split_first k as with
      | none => simp [hs] at h
      | some t =>
        obtain ⟨pre1, q, post1⟩ := t
        simp [hs] at h
        obtain ⟨rfl, rfl, rfl⟩ := h
        obtain ⟨h1, h2, h3⟩ := ih pre1 hs
        refine ⟨by rw [h1]; rfl, h2, ?_⟩
        intro x hx
        simp only [List.mem_cons] at hx
        rcases hx with rfl | hx
        · exact ha
        · exact h3 x hx

theorem reachable_internal_next (N : Int) (g : Global) (k : Int) (hk0 : 0 ≤ k) (hk : k < N)
    (h : Reachable N g) : Reachable N (internal_next g k) := by
  unfold internal_next
  cases hs : step k .tick (g.locals k) with
  | none => exact h
  | some l1 => exact Reachable.next g _ h (GStep.internal g k l1 hk0 hk hs)

theorem reachable_deliver_next (N : Int) (g : Global) (k : Int) (hk0 : 0 ≤ k) (hk : k < N)
    (h : Reachable N g) : Reachable N (deliver_next g k) := by
  unfold deliver_next
  cases hsp : split_first k g.net with
  | none => exact h
  | some t =>
    obtain ⟨pre, p, post⟩ := t
    obtain ⟨h1, h2, h3⟩ := split_first_spec k g.net pre post p hsp
    dsimp only
    cases hs : step k (.recv p.msg) (g.locals k) with
    | none => exact h
    | some l1 =>
      refine Reachable.next g _ h (GStep.deliver g k pre post p l1 hk0 hk h1 h2 ?_ hs)
      intro q hq hc
      exact h3 q hq (hc.2.trans h2)

theorem reachable_play (N : Int) (ms : List Move) :
    ∀ g : Global, Reachable N g → Reachable N (play N ms g) := by
  induction ms with
  | nil => intro g h; exact h
  | cons m ms ih =>
    intro g h
    apply ih
    cases m with
    | tick k =>
      simp only [move_next]
      split_ifs with hk
      · exact reachable_internal_next N g k hk.1 hk.2 h
      · exact h
    | deliver k =>
      simp only [move_next]
      split_ifs with hk
      · exact reachable_deliver_next N g k hk.1 hk.2 h
      · exact h

/-- Witness for C8: in a ring of 3, rank 1 gets hungry and asks rank 0 for fork 1,
rank 0 grants it while thinking, rank 1 receives the grant; fork 1 is then held by
rank 1 (and by nobody else). -/
theorem fork_mutual_exclusion_witness :
    Reachable 3 (play 3 [.tick 1, .tick 1, .deliver 0, .deliver 1] (init_global 3)) ∧
      holds ((play 3 [.tick 1, .tick 1, .deliver 0, .deliver 1]
        (init_global 3)).locals 1).data.forks 1 1 ∧
      ¬ holds ((play 3 [.tick 1, .tick 1, .deliver 0, .deliver 1]
        (init_global 3)).locals 0).data.forks 0 1 ∧
      (1 : Int) = 1 :=
  ⟨reachable_play 3 _ _ Reachable.init, by decide, by decide,
    fork_mutual_exclusion 3
      (play 3 [.tick 1, .tick 1, .deliver 0, .deliver 1] (init_global 3))
      (reachable_play 3 _ _ Reachable.init) 1 1 1
      (by decide) (by decide) (by decide) (by decide) (by decide) (by decide)⟩


/-! ## Request-grant round trip -/

/-- C9. Request-grant round trip: neighbours `A ≠ B` share fork `f` (slot `iA` of `A`,
slot `iB` of `B`, tables with different ids); `A` holds `f` dirty and `B` records `A`
as owner. Then hungry `B` sends the request `(f, B, FORK_REQUEST)` to `A`;
`parse_request` at `A` answers with exactly the grant `(f, A, FORK_RESPONSE)` addressed
to `B`; after `parse_response` at `B` on that grant, `B` holds `f` and `A` does not,
`f` is clean in both records, `A` records `B` as owner and `B` records `A` as
alt_owner. -/
theorem request_grant_round_trip (A B f : Int) (sA sB : Proc) (iA iB : Nat) (b : Bool)
    (hiA : iA < 2) (hiB : iB < 2) (hAB : A ≠ B)
    (hdA : sA.forks.f0.id ≠ sA.forks.f1.id) (hdB : sB.forks.f0.id ≠ sB.forks.f1.id)
    (hidA : (sA.forks.get iA).id = f) (hownA : (sA.forks.get iA).owner = A)
    (hdirty : (sA.forks.get iA).clean = false)
    (hidB : (sB.forks.get iB).id = f) (hownB : (sB.forks.get iB).owner = A) :
    step B .tick ⟨.scan iB b, sB⟩
        = some ⟨.wait iB, { sB with sent := sB.sent ++ [⟨A, ⟨f, B, FORK_REQUEST⟩⟩] }⟩ ∧
      (parse_request ⟨f, B, FORK_REQUEST⟩ sA A).sent
        = sA.sent ++ [⟨B, ⟨f, A, FORK_RESPONSE⟩⟩] ∧
      holds (parse_response ⟨f, A, FORK_RESPONSE⟩ sB.forks B) B f ∧
      ¬ holds (parse_request ⟨f, B, FORK_REQUEST⟩ sA A).forks A f ∧
      (parse_request ⟨f, B, FORK_REQUEST⟩ sA A).forks.get iA = ⟨f, true, B, A⟩ ∧
      (parse_response ⟨f, A, FORK_RESPONSE⟩ sB.forks B).get iB = ⟨f, true, B, A⟩ := by
  have hA : iA = 0 ∨ iA = 1 := by omega
  have hB : iB = 0 ∨ iB = 1 := by omega
  have hneA := other_id_ne sA.forks iA hiA hdA
  have hneB := other_id_ne sB.forks iB hiB hdB
  rw [hidA] at hneA
  rw [hidB] at hneB
  have hBA : ¬ B = A := fun h => hAB h.symm
  refine ⟨?_, ?_, ?_, ?_, ?_, ?_⟩
  · simp [step, hiB, hidB, hownB, hAB]
  · rcases hA with rfl | rfl <;> simp [Forks.get] at hidA hownA hdirty hneA <;>
      simp [parse_request, parse_request_at, Forks.get, Forks.set, hidA, hownA, hdirty, hneA]
  · rcases hB with rfl | rfl <;> simp [Forks.get] at hidB hneB <;>
      simp [holds, parse_response, parse_response_at, Forks.get, Forks.set, hidB, hneB]
  · rcases hA with rfl | rfl <;> simp [Forks.get] at hidA hownA hdirty hneA <;>
      simp [holds, parse_request, parse_request_at, Forks.get, Forks.set, hidA, hownA,
        hdirty, hneA, hBA]
  · rcases hA with rfl | rfl <;> simp [Forks.get] at hidA hownA hdirty hneA <;>
      simp [parse_request, parse_request_at, Forks.get, Forks.set, hidA, hownA, hdirty, hneA]
  · rcases hB with rfl | rfl <;> simp [Forks.get] at hidB hneB <;>
      simp [parse_response, parse_response_at, Forks.get, Forks.set, hidB, hneB]

/-- Witness for C9: ranks 0 and 1 of a ring of 3 and fork 1 at start-up. -/
theorem request_grant_round_trip_witness :
    step 1 .tick ⟨.scan 0 true, init_proc 3 1⟩
        = some ⟨.wait 0, { init_proc 3 1 with
            sent := (init_proc 3 1).sent ++ [⟨0, ⟨1, 1, FORK_REQUEST⟩⟩] }⟩ ∧
      (parse_request ⟨1, 1, FORK_REQUEST⟩ (init_proc 3 0) 0).sent
        = (init_proc 3 0).sent ++ [⟨1, ⟨1, 0, FORK_RESPONSE⟩⟩] ∧
      holds (parse_response ⟨1, 0, FORK_RESPONSE⟩ (init_proc 3 1).forks 1) 1 1 ∧
      ¬ holds (parse_request ⟨1, 1, FORK_REQUEST⟩ (init_proc 3 0) 0).forks 0 1 ∧
      (parse_request ⟨1, 1, FORK_REQUEST⟩ (init_proc 3 0) 0).forks.get 1 = ⟨1, true, 1, 0⟩ ∧
      (parse_response ⟨1, 0, FORK_RESPONSE⟩ (init_proc 3 1).forks 1).get 0
        = ⟨1, true, 1, 0⟩ :=
  request_grant_round_trip 0 1 1 (init_proc 3 0) (init_proc 3 1) 1 0 true
    (by decide) (by decide) (by decide) (by decide) (by decide) (by decide) (by decide)
    (by decide) (by decide) (by decide)

/-! ## Messages of unknown kind -/

theorem parse_request_at_grows (i : Nat) (m : ForkMessage) (k : Int) (s : Proc) :
    (parse_request_at i m k s).requests.length + (parse_request_at i m k s).sent.length
      = s.requests.length + s.sent.length
        + (if (s.forks.get i).id = m.id then 1 else 0) := by
  unfold parse_request_at
  split_ifs <;> simp <;> omega

theorem parse_request_at_zero_slot_one (m : ForkMessage) (k : Int) (s : Proc) :
    ((parse_request_at 0 m k s).forks.get 1).id = s.forks.f1.id := by
  unfold parse_request_at
  split_ifs <;> simp [Forks.get, Forks.set]

theorem parse_request_unchanged_iff (k : Int) (m : ForkMessage) (s : Proc) :
    parse_request m s k = s ↔ (s.forks.f0.id ≠ m.id ∧ s.forks.f1.id ≠ m.id) := by
  constructor
  · intro h
    have h0 := parse_request_at_grows 0 m k s
    have h1 := parse_request_at_grows 1 m k (parse_request_at 0 m k s)
    rw [parse_request_at_zero_slot_one] at h1
    have h2 : (parse_request_at 1 m k (parse_request_at 0 m k s)) = s := h
    rw [h2] at h1
    simp only [Forks.get, if_true] at h0
    constructor
    · intro hc
      rw [if_pos hc] at h0
      split_ifs at h1 <;> omega
    · intro hc
      rw [if_pos hc] at h1
      split_ifs at h0 <;> omega
  · rintro ⟨h0, h1⟩
    simp [parse_request, parse_request_at, Forks.get, h0, h1]

/-- C10 (counterexample). A message of kind 2 is not ignored. Rank 0 of a ring of 3,
thinking at start-up, receives `(fork 0, sender 2, kind 2)`: it hands fork 0 over and
sends a grant to rank 2. Rank 1, hungry and waiting for fork 1, receives
`(fork 1, sender 0, kind 2)`: the message lands on its deferred stack. -/
theorem unknown_kind_not_ignored :
    (2 : Int) ≠ FORK_REQUEST ∧ (2 : Int) ≠ FORK_RESPONSE ∧
      step 0 (.recv ⟨0, 2, 2⟩) ⟨.think, init_proc 3 0⟩
        = some ⟨.think,
            ⟨⟨⟨0, true, 2, 0⟩, ⟨1, false, 0, 1⟩⟩, [], [⟨2, ⟨0, 0, FORK_RESPONSE⟩⟩]⟩⟩ ∧
      step 1 (.recv ⟨1, 0, 2⟩) ⟨.wait 0, init_proc 3 1⟩
        = some ⟨.wait 0, ⟨init_forks 3 1, [⟨1, 0, 2⟩], []⟩⟩ := by
  decide

/-- C10 (amended). A message whose kind is neither `FORK_REQUEST` nor `FORK_RESPONSE`
is handled exactly as a request in both receive loops, whatever the process holds: the
think loop applies `parse_request` to it, and so does the hungry receive loop for
every slot `i` whose fork is missing (the loop only receives while it is). The fork
records, the deferred stack and the send log are all left unchanged exactly when its
fork id matches neither record of the process. -/
theorem unknown_kind_handled_as_request (k : Int) (m : ForkMessage) (s : Proc)
    (_hreq : m.type ≠ FORK_REQUEST) (hresp : m.type ≠ FORK_RESPONSE) :
    step k (.recv m) ⟨.think, s⟩ = some ⟨.think, parse_request m s k⟩ ∧
      (∀ i : Nat, (s.forks.get i).owner ≠ k →
        step k (.recv m) ⟨.wait i, s⟩ = some ⟨.wait i, parse_request m s k⟩) ∧
      (parse_request m s k = s ↔ (s.forks.f0.id ≠ m.id ∧ s.forks.f1.id ≠ m.id)) := by
  refine ⟨?_, ?_, parse_request_unchanged_iff k m s⟩
  · simp [step, recv_think]
  · intro i hmiss
    simp [step, recv_hungry, hresp, hmiss]

/-- Witness for C10 (amended): rank 1 of a ring of 3 at start-up holds fork 2 dirty and
misses fork 1 (slot 0); a message of kind 2 about fork 2 from rank 2 makes it hand
fork 2 over and send a grant, in the think loop and in the hungry receive loop. -/
theorem unknown_kind_handled_as_request_witness :
    (parse_request ⟨2, 2, 2⟩ (init_proc 3 1) 1
        = ⟨⟨⟨1, false, 0, 1⟩, ⟨2, true, 2, 1⟩⟩, [], [⟨2, ⟨2, 1, FORK_RESPONSE⟩⟩]⟩ ∧
      step 1 (.recv ⟨2, 2, 2⟩) ⟨.wait 0, init_proc 3 1⟩
        = some ⟨.wait 0, parse_request ⟨2, 2, 2⟩ (init_proc 3 1) 1⟩) ∧
      step 1 (.recv ⟨2, 2, 2⟩) ⟨.think, init_proc 3 1⟩
        = some ⟨.think, parse_request ⟨2, 2, 2⟩ (init_proc 3 1) 1⟩ ∧
      (∀ i : Nat, ((init_proc 3 1).forks.get i).owner ≠ 1 →
        step 1 (.recv ⟨2, 2, 2⟩) ⟨.wait i, init_proc 3 1⟩
          = some ⟨.wait i, parse_request ⟨2, 2, 2⟩ (init_proc 3 1) 1⟩) ∧
      (parse_request ⟨2, 2, 2⟩ (init_proc 3 1) 1 = init_proc 3 1 ↔
        ((init_proc 3 1).forks.f0.id ≠ 2 ∧ (init_proc 3 1).forks.f1.id ≠ 2)) :=
  ⟨⟨by decide,
      (unknown_kind_handled_as_request 1 ⟨2, 2, 2⟩ (init_proc 3 1)
        (by decide) (by decide)).2.1 0 (by decide)⟩,
    unknown_kind_handled_as_request 1 ⟨2, 2, 2⟩ (init_proc 3 1) (by decide) (by decide)⟩

/-! ## Routing of received messages -/

/-- C14. Eating dirties both forks: from the entry of EATING the process moves to the
release loop with both records marked `clean = false`; ids, owners and alt_owners,
the deferred stack and the send log are as before. -/
theorem eating_dirties_both_forks (k : Int) (s : Proc) :
    step k .tick ⟨.eat, s⟩ = some ⟨.release, { s with forks := eat_forks s.forks }⟩ ∧
      (eat_forks s.forks).f0 = { s.forks.f0 with clean := false } ∧
      (eat_forks s.forks).f1 = { s.forks.f1 with clean := false } := by
  refine ⟨rfl, ?_, ?_⟩ <;> simp [eat_forks, Forks.set, Forks.get]

/-- C15. Forks start dirty: both records of the initial table of any rank `k` in any
ring size `N` (in particular `N >= 1`, `0 <= k < N`) have `clean = false`, held or
not. -/
theorem forks_start_dirty (N k : Int) :
    (init_forks N k).f0.clean = false ∧ (init_forks N k).f1.clean = false := by
  unfold init_forks
  split_ifs <;> exact ⟨rfl, rfl⟩

/-! ## The release loop -/

theorem release_all_spec (k : Int) (reqs : List ForkMessage) :
    ∀ s : Proc, release_all k reqs s
      = ⟨s.forks, [], s.sent ++ reqs.map (release_packet k)⟩ := by
  induction reqs with
  | nil => intro s; simp [release_all]
  | cons top rest ih =>
    intro s
    simp [release_all, ih, release_one, release_packet]

theorem run_release (k : Int) (reqs : List ForkMessage) :
    ∀ s : Proc, s.requests = reqs →
      run k (List.replicate (reqs.length + 1) .tick) ⟨.release, s⟩
        = some ⟨.think, release_all k reqs s⟩ := by
  induction reqs with
  | nil =>
    intro s hs
    obtain ⟨fs, rq, st⟩ := s
    simp only at hs
    subst hs
    simp [run, step, release_all]
  | cons top rest ih =>
    intro s hs
    obtain ⟨fs, rq, st⟩ := s
    simp only at hs
    subst hs
    have := ih (release_one top rest ⟨fs, top :: rest, st⟩ k) (by simp [release_one])
    simp only [List.length_cons, List.replicate_succ, run, step, release_all]
    simpa [List.replicate_succ] using this

theorem run_eat (k : Int) (es : List Event) (s : Proc) :
    run k (.tick :: es) ⟨.eat, s⟩
      = run k es ⟨.release, { s with forks := eat_forks s.forks }⟩ := rfl

/-- C17. Observed release step: from the head of the release loop with deferred stack
`s.requests`, `length + 1` moves of the process end the loop in the think phase; the
packets sent are, for each deferred request from the top of the stack down, one
message `(deferred fork id, k, FORK_REQUEST)` addressed to the deferred requester
(`FORK_REQUEST` is not the grant tag); the fork table is unchanged and the stack is
empty. -/
theorem release_step_observed (k : Int) (s : Proc) :
    run k (List.replicate (s.requests.length + 1) .tick) ⟨.release, s⟩
        = some ⟨.think,
            ⟨s.forks, [],
              s.sent ++ s.requests.map (fun r => ⟨r.sender, ⟨r.id, k, FORK_REQUEST⟩⟩)⟩⟩ ∧
      FORK_REQUEST ≠ FORK_RESPONSE := by
  refine ⟨?_, by decide⟩
  rw [run_release k s.requests s rfl, release_all_spec]
  rfl

theorem recv_in_ids (th : Bool) (k : Int) (m : ForkMessage) (s : Proc) :
    (recv_in th m s k).forks.f0.id = s.forks.f0.id ∧
      (recv_in th m s k).forks.f1.id = s.forks.f1.id := by
  unfold recv_in recv_think recv_hungry
  split_ifs
  · exact parse_request_ids k m s
  · exact parse_response_ids k m s.forks
  · exact parse_request_ids k m s

theorem parse_request_stack (k : Int) (m : ForkMessage) (s : Proc)
    (hdist : s.forks.f0.id ≠ s.forks.f1.id) :
    (parse_request m s k).requests
      = if defers k m s then m :: s.requests else s.requests := by
  unfold defers
  by_cases h0 : s.forks.f0.id = m.id
  · have h1 : ¬ s.forks.f1.id = m.id := fun h => hdist (h0.trans h.symm)
    by_cases o0 : s.forks.f0.owner = k <;> by_cases c0 : s.forks.f0.clean = true <;>
      simp [parse_request, parse_request_at, Forks.get, Forks.set, h0, h1, o0, c0]
  · by_cases h1 : s.forks.f1.id = m.id
    · by_cases o1 : s.forks.f1.owner = k <;> by_cases c1 : s.forks.f1.clean = true <;>
        simp [parse_request, parse_request_at, Forks.get, Forks.set, h0, h1, o1, c1]
    · simp [parse_request, parse_request_at, Forks.get, h0, h1]

theorem recv_all_stack (k : Int) (evs : List (Bool × ForkMessage)) :
    ∀ s : Proc, s.forks.f0.id ≠ s.forks.f1.id →
      (recv_all k evs s).requests = (deferred_log k evs s).reverse ++ s.requests := by
  induction evs with
  | nil => intro s _; simp [recv_all, deferred_log]
  | cons e es ih =>
    intro s hdist
    obtain ⟨th, m⟩ := e
    have hids := recv_in_ids th k m s
    have hd1 : (recv_in th m s k).forks.f0.id ≠ (recv_in th m s k).forks.f1.id := by
      rw [hids.1, hids.2]; exact hdist
    have hstack : (recv_in th m s k).requests
        = if (th = true ∨ m.type ≠ FORK_RESPONSE) ∧ defers k m s then m :: s.requests
          else s.requests := by
      unfold recv_in recv_think recv_hungry
      cases th
      · by_cases hty : m.type = FORK_RESPONSE
        · simp [hty, apply_response]
        · simp [hty, parse_request_stack k m s hdist]
      · simp [parse_request_stack k m s hdist]
    simp only [recv_all, deferred_log]
    rw [ih _ hd1, hstack]
    split_ifs <;> simp

/-- C16. LIFO drain order: let a process with an empty deferred stack (and a table
with two different ids) receive any sequence of messages in its think and hungry
loops, and let `r1, ..., rn` be those that `parse_request` deferred, in order of
arrival. Then its stack holds them newest on top, and eating followed by the release
loop (`n + 2` moves) sends exactly `n` packets, addressed to the senders of
`rn, ..., r1` in that order, each carrying the fork id of its request. -/
theorem lifo_release_order (k : Int) (evs : List (Bool × ForkMessage)) (s : Proc)
    (hdist : s.forks.f0.id ≠ s.forks.f1.id) (hempty : s.requests = []) :
    (recv_all k evs s).requests = (deferred_log k evs s).reverse ∧
      run k (List.replicate ((deferred_log k evs s).length + 2) .tick)
          ⟨.eat, recv_all k evs s⟩
        = some ⟨.think,
            ⟨eat_forks (recv_all k evs s).forks, [],
              (recv_all k evs s).sent ++
                (deferred_log k evs s).reverse.map
                  (fun r => ⟨r.sender, ⟨r.id, k, FORK_REQUEST⟩⟩)⟩⟩ := by
  have hst : (recv_all k evs s).requests = (deferred_log k evs s).reverse := by
    rw [recv_all_stack k evs s hdist, hempty, List.append_nil]
  refine ⟨hst, ?_⟩
  have hlen : (deferred_log k evs s).length = (recv_all k evs s).requests.length := by
    rw [hst, List.length_reverse]
  rw [hlen, List.replicate_succ, run_eat,
    run_release k (recv_all k evs s).requests
      { recv_all k evs s with forks := eat_forks (recv_all k evs s).forks } rfl,
    release_all_spec, hst]
  rfl

/-- Witness for C16: rank 1 of a ring of 3 defers a request of rank 0 for fork 1 (not
held) while thinking, then, hungry, takes a grant of fork 2 and defers a request of
rank 2 for that clean fork; the release answers rank 2 first, then rank 0. -/
theorem lifo_release_order_witness :
    (recv_all 1 [(true, ⟨1, 0, FORK_REQUEST⟩), (false, ⟨2, 2, FORK_RESPONSE⟩),
          (false, ⟨2, 2, FORK_REQUEST⟩)] (init_proc 3 1)).requests
        = (deferred_log 1 [(true, ⟨1, 0, FORK_REQUEST⟩), (false, ⟨2, 2, FORK_RESPONSE⟩),
          (false, ⟨2, 2, FORK_REQUEST⟩)] (init_proc 3 1)).reverse ∧
      run 1 (List.replicate ((deferred_log 1 [(true, ⟨1, 0, FORK_REQUEST⟩),
            (false, ⟨2, 2, FORK_RESPONSE⟩), (false, ⟨2, 2, FORK_REQUEST⟩)]
            (init_proc 3 1)).length + 2) .tick)
          ⟨.eat, recv_all 1 [(true, ⟨1, 0, FORK_REQUEST⟩), (false, ⟨2, 2, FORK_RESPONSE⟩),
            (false, ⟨2, 2, FORK_REQUEST⟩)] (init_proc 3 1)⟩
        = some ⟨.think,
            ⟨eat_forks (recv_all 1 [(true, ⟨1, 0, FORK_REQUEST⟩),
                (false, ⟨2, 2, FORK_RESPONSE⟩), (false, ⟨2, 2, FORK_REQUEST⟩)]
                (init_proc 3 1)).forks, [],
              (recv_all 1 [(true, ⟨1, 0, FORK_REQUEST⟩), (false, ⟨2, 2, FORK_RESPONSE⟩),
                (false, ⟨2, 2, FORK_REQUEST⟩)] (init_proc 3 1)).sent ++
                (deferred_log 1 [(true, ⟨1, 0, FORK_REQUEST⟩),
                  (false, ⟨2, 2, FORK_RESPONSE⟩), (false, ⟨2, 2, FORK_REQUEST⟩)]
                  (init_proc 3 1)).reverse.map
                  (fun r => ⟨r.sender, ⟨r.id, 1, FORK_REQUEST⟩⟩)⟩⟩ :=
  lifo_release_order 1 [(true, ⟨1, 0, FORK_REQUEST⟩), (false, ⟨2, 2, FORK_RESPONSE⟩),
    (false, ⟨2, 2, FORK_REQUEST⟩)] (init_proc 3 1) (by decide) (by decide)

/-! ## Deadlock and starvation in the ring of 3 -/

theorem rank_cases_three (k : Int) (hk0 : 0 ≤ k) (hk : k < 3) : k = 0 ∨ k = 1 ∨ k = 2 := by
  omega

/-- C12 (the code at a failing input). In the ring of 3, the schedule
`deadlock_schedule` leads from start-up to a reachable state in which no packet is in
flight, every rank is HUNGRY, blocked in the receive loop for its second fork, no rank
holds both of its forks, and no step of the system is possible any more. Rank 2 holds
fork 2 dirty: it answered rank 1's deferred request from its release loop with a
`FORK_REQUEST` instead of handing the fork over. -/
theorem deadlock_reachable :
    Reachable 3 (play 3 deadlock_schedule (init_global 3)) ∧
      (play 3 deadlock_schedule (init_global 3)).net = [] ∧
      (((play 3 deadlock_schedule (init_global 3)).locals 0).phase = .wait 1 ∧
        ((play 3 deadlock_schedule (init_global 3)).locals 1).phase = .wait 1 ∧
        ((play 3 deadlock_schedule (init_global 3)).locals 2).phase = .wait 1) ∧
      (((play 3 deadlock_schedule (init_global 3)).locals 0).data.forks
          = ⟨⟨0, true, 0, 2⟩, ⟨1, true, 1, 0⟩⟩ ∧
        ((play 3 deadlock_schedule (init_global 3)).locals 1).data.forks
          = ⟨⟨1, true, 1, 0⟩, ⟨2, true, 2, 1⟩⟩ ∧
        ((play 3 deadlock_schedule (init_global 3)).locals 2).data.forks
          = ⟨⟨2, false, 2, 1⟩, ⟨0, true, 0, 2⟩⟩) ∧
      ∀ g1 : Global, ¬ GStep 3 (play 3 deadlock_schedule (init_global 3)) g1 := by
  refine ⟨reachable_play 3 _ _ Reachable.init, by decide, by decide, by decide, ?_⟩
  intro g1 h
  have hnet : (play 3 deadlock_schedule (init_global 3)).net = [] := by decide
  have h0 : step 0 .tick ((play 3 deadlock_schedule (init_global 3)).locals 0) = none := by
    decide
  have h1 : step 1 .tick ((play 3 deadlock_schedule (init_global 3)).locals 1) = none := by
    decide
  have h2 : step 2 .tick ((play 3 deadlock_schedule (init_global 3)).locals 2) = none := by
    decide
  generalize play 3 deadlock_schedule (init_global 3) = g at h hnet h0 h1 h2
  cases h with
  | internal k l1 hk0 hk hs =>
    rcases rank_cases_three k hk0 hk with rfl | rfl | rfl
    · rw [h0] at hs; cases hs
    · rw [h1] at hs; cases hs
    · rw [h2] at hs; cases hs
  | deliver k pre post p l1 hk0 hk hn hdest hfifo hs =>
    rw [hnet] at hn
    simp at hn

theorem enabled_gstep (N : Int) (g : Global) (m : Move) (h : enabled N g m = true) :
    GStep N g (move_next N g m) := by
  cases m with
  | tick k =>
    simp only [enabled, Bool.and_eq_true, decide_eq_true_eq] at h
    obtain ⟨hk, hs⟩ := h
    simp only [move_next, if_pos hk, internal_next]
    cases hst : step k .tick (g.locals k) with
    | none => rw [hst] at hs; cases hs
    | some l1 => exact GStep.internal g k l1 hk.1 hk.2 hst
  | deliver k =>
    simp only [enabled, Bool.and_eq_true, decide_eq_true_eq] at h
    obtain ⟨hk, hs⟩ := h
    simp only [move_next, if_pos hk, deliver_next]
    cases hsp : split_first k g.net with
    | none => rw [hsp] at hs; cases hs
    | some t =>
      obtain ⟨pre, p, post⟩ := t
      rw [hsp] at hs
      obtain ⟨h1, h2, h3⟩ := split_first_spec k g.net pre post p hsp
      dsimp only at hs ⊢
      cases hst : step k (.recv p.msg) (g.locals k) with
      | none => rw [hst] at hs; cases hs
      | some l1 =>
        refine GStep.deliver g k pre post p l1 hk.1 hk.2 h1 h2 ?_ hst
        intro q hq hc
        exact h3 q hq (hc.2.trans h2)

theorem agree_locals (g g1 : Global) (h : agree g g1) (k : Int) (hk0 : 0 ≤ k) (hk : k < 3) :
    g.locals k = g1.locals k := by
  rcases rank_cases_three k hk0 hk with rfl | rfl | rfl
  · exact h.1
  · exact h.2.1
  · exact h.2.2.1

theorem agree_update (g g1 : Global) (h : agree g g1) (k : Int) (l : Local)
    (n n1 : List Flight) (hn : n = n1) :
    agree ⟨Function.update g.locals k l, n⟩ ⟨Function.update g1.locals k l, n1⟩ := by
  refine ⟨?_, ?_, ?_, hn⟩
  · by_cases hk : (0 : Int) = k
    · subst hk; simp
    · simp [Function.update_noteq hk, h.1]
  · by_cases hk : (1 : Int) = k
    · subst hk; simp
    · simp [Function.update_noteq hk, h.2.1]
  · by_cases hk : (2 : Int) = k
    · subst hk; simp
    · simp [Function.update_noteq hk, h.2.2.1]

theorem agree_move (g g1 : Global) (m : Move) (h : agree g g1) :
    agree (move_next 3 g m) (move_next 3 g1 m) := by
  cases m with
  | tick k =>
    simp only [move_next]
    split_ifs with hk
    · simp only [internal_next]
      rw [← agree_locals g g1 h k hk.1 hk.2]
      cases step k .tick (g.locals k) with
      | none => exact h
      | some l1 => exact agree_update g g1 h k _ _ _ (by rw [h.2.2.2])
    · exact h
  | deliver k =>
    simp only [move_next]
    split_ifs with hk
    · simp only [deliver_next]
      rw [← agree_locals g g1 h k hk.1 hk.2, ← h.2.2.2]
      cases split_first k g.net with
      | none => exact h
      | some t =>
        obtain ⟨pre, p, post⟩ := t
        dsimp only
        cases step k (.recv p.msg) (g.locals k) with
        | none => exact h
        | some l1 => exact agree_update g g1 h k _ _ _ rfl
    · exact h

theorem starve_check_agree (n : Nat) (g g1 : Global) (h : agree g g1) :
    starve_check n g = starve_check n g1 := by
  have hen : ∀ m, enabled 3 g m = enabled 3 g1 m := by
    intro m
    cases m with
    | tick k =>
      simp only [enabled]
      by_cases hk : 0 ≤ k ∧ k < 3
      · rw [agree_locals g g1 h k hk.1 hk.2]
      · simp [hk]
    | deliver k =>
      simp only [enabled]
      by_cases hk : 0 ≤ k ∧ k < 3
      · rw [agree_locals g g1 h k hk.1 hk.2, h.2.2.2]
      · simp [hk]
  simp only [starve_check, rank_one_blocked, hen, h.2.1, h.2.2.2]

theorem starve_move_period (n : Nat) : starve_move (n + 50 + 24) = starve_move (n + 50) := by
  unfold starve_move
  have h1 : ¬ n + 50 + 24 < 50 := by omega
  have h2 : ¬ n + 50 < 50 := by omega
  have h3 : (n + 50 + 24 - 50) % 24 = (n + 50 - 50) % 24 := by omega
  rw [if_neg h1, if_neg h2, h3]

set_option maxRecDepth 100000 in
theorem starve_period_base : agree (starve_state 74) (starve_state 50) := by
  decide

theorem starve_period (n : Nat) : agree (starve_state (n + 50 + 24)) (starve_state (n + 50)) := by
  induction n with
  | zero => exact starve_period_base
  | succ n ih =>
    have e1 : n + 1 + 50 + 24 = (n + 50 + 24) + 1 := by omega
    have e2 : n + 1 + 50 = (n + 50) + 1 := by omega
    rw [e1, e2]
    simp only [starve_state]
    rw [starve_move_period]
    exact agree_move _ _ _ ih

theorem starve_period_mul (j q : Nat) :
    agree (starve_state (j + 50 + 24 * q)) (starve_state (j + 50)) := by
  induction q with
  | zero => exact ⟨rfl, rfl, rfl, rfl⟩
  | succ q ih =>
    have e : j + 50 + 24 * (q + 1) = (j + 24 * q) + 50 + 24 := by omega
    have e1 : j + 50 + 24 * q = (j + 24 * q) + 50 := by omega
    rw [e]
    rw [e1] at ih
    have hp := starve_period (j + 24 * q)
    exact ⟨hp.1.trans ih.1, hp.2.1.trans ih.2.1, hp.2.2.1.trans ih.2.2.1,
      hp.2.2.2.trans ih.2.2.2⟩

set_option maxRecDepth 100000 in
theorem starve_check_small : ∀ n < 74, starve_check n (starve_state n) = true := by
  decide

theorem starve_check_all (n : Nat) : starve_check n (starve_state n) = true := by
  induction n using Nat.strong_induction_on with
  | _ n ih =>
    by_cases hn : n < 74
    · exact starve_check_small n hn
    · obtain ⟨j, rfl⟩ : ∃ j, n = j + 50 + 24 := ⟨n - 74, by omega⟩
      rw [starve_check_agree _ _ _ (starve_period j)]
      have := ih (j + 50) (by omega)
      simp only [starve_check] at this ⊢
      rw [starve_move_period]
      have h1 : ¬ j + 50 + 24 < 50 := by omega
      have h2 : ¬ j + 50 < 50 := by omega
      simpa [h1, h2] using this

set_option maxRecDepth 100000 in
theorem starve_marks :
    ((starve_state (22 + 50)).locals 0).phase = .eat ∧
      ((starve_state (10 + 50)).locals 2).phase = .eat ∧
      (starve_state (0 + 50)).net = [] := by
  decide

/-- C13 (the code on an infinite run). The infinite schedule `starve_move` of the ring
of 3 is a run of the system from start-up: every move is a step. From position 50 on,
rank 1 is for ever in its receive loop for fork 1, cannot move on, and no packet is
ever addressed to it, so it is never scheduled unfairly and never eats again; ranks 0
and 2 eat infinitely often and the network is empty infinitely often (every packet is
delivered). -/
theorem starvation_run :
    starve_state 0 = init_global 3 ∧
      (∀ n : Nat, GStep 3 (starve_state n) (starve_state (n + 1))) ∧
      (∀ n : Nat, ((starve_state (n + 50)).locals 1).phase = .wait 0 ∧
        step 1 .tick ((starve_state (n + 50)).locals 1) = none ∧
        ∀ p ∈ (starve_state (n + 50)).net, p.dest ≠ 1) ∧
      (∀ n : Nat, ∃ m : Nat, n ≤ m ∧ ((starve_state m).locals 0).phase = .eat) ∧
      (∀ n : Nat, ∃ m : Nat, n ≤ m ∧ ((starve_state m).locals 2).phase = .eat) ∧
      (∀ n : Nat, ∃ m : Nat, n ≤ m ∧ (starve_state m).net = []) := by
  refine ⟨rfl, ?_, ?_, ?_, ?_, ?_⟩
  · intro n
    have h := starve_check_all n
    simp only [starve_check, Bool.and_eq_true] at h
    exact enabled_gstep 3 _ _ h.1
  · intro n
    have h := starve_check_all (n + 50)
    have h2 : ¬ n + 50 < 50 := by omega
    simp only [starve_check, rank_one_blocked, Bool.and_eq_true, Bool.or_eq_true,
      decide_eq_true_eq, h2, false_or, Option.isNone_iff_eq_none, List.all_eq_true] at h
    exact ⟨h.2.1, h.2.2.1, h.2.2.2⟩
  · intro n
    refine ⟨22 + 50 + 24 * n, by omega, ?_⟩
    rw [(starve_period_mul 22 n).1]
    exact starve_marks.1
  · intro n
    refine ⟨10 + 50 + 24 * n, by omega, ?_⟩
    rw [(starve_period_mul 10 n).2.2.1]
    exact starve_marks.2.1
  · intro n
    refine ⟨0 + 50 + 24 * n, by omega, ?_⟩
    rw [(starve_period_mul 0 n).2.2.2]
    exact starve_marks.2.2

end DrinkingPhil

namespace Connect4

/-! ## Column words -/

theorem cell_set_nat (col p q v : Nat) (hv : v < 4) (hp : p ≤ 5) (hq : q ≤ 5) :
    ((((col &&& (0xFFFFFFFF ^^^ (3 <<< (2 * p)))) ||| (v <<< (2 * p))) % 2 ^ 32)
        >>> (2 * q)) &&& 3
      = if q = p then v else (col >>> (2 * q)) &&& 3 := by
  have h3 : (3 : Nat) = 2 ^ 2 - 1 := by norm_num
  have hF : (0xFFFFFFFF : Nat) = 2 ^ 32 - 1 := by norm_num
  apply Nat.eq_of_testBit_eq
  intro i
  rw [h3, hF]
  simp only [Nat.testBit_and, Nat.testBit_shiftRight, Nat.testBit_mod_two_pow, Nat.testBit_or,
    Nat.testBit_xor, Nat.testBit_shiftLeft, Nat.testBit_two_pow_sub_one]
  by_cases hi : i < 2
  · by_cases hqp : q = p
    · subst hqp
      have a1 : 2 * q + i < 32 := by omega
      have a2 : 2 * q + i ≥ 2 * q := by omega
      have a3 : 2 * q + i - 2 * q = i := by omega
      simp [a1, a2, a3, hi]
    · have a1 : 2 * q + i < 32 := by omega
      simp only [if_neg hqp, Nat.testBit_and, Nat.testBit_shiftRight, Nat.testBit_two_pow_sub_one]
      by_cases hge : 2 * q + i ≥ 2 * p
      · have a4 : ¬ (2 * q + i - 2 * p < 2) := by omega
        have a5 : v.testBit (2 * q + i - 2 * p) = false := by
          apply Nat.testBit_lt_two_pow
          calc v < 4 := hv
            _ = 2 ^ 2 := by norm_num
            _ ≤ 2 ^ (2 * q + i - 2 * p) := Nat.pow_le_pow_right (by norm_num) (by omega)
        simp [a1, hge, a4, a5, hi]
      · simp [a1, hge, hi]
  · have a6 : v.testBit i = false := by
      apply Nat.testBit_lt_two_pow
      calc v < 4 := hv
        _ = 2 ^ 2 := by norm_num
        _ ≤ 2 ^ i := Nat.pow_le_pow_right (by norm_num) (by omega)
    have a7 : Nat.testBit 3 i = false := by
      apply Nat.testBit_lt_two_pow
      calc 3 < 4 := by norm_num
        _ = 2 ^ 2 := by norm_num
        _ ≤ 2 ^ i := Nat.pow_le_pow_right (by norm_num) (by omega)
    split_ifs <;> simp [hi, a6, a7]

theorem column_get_set (col : Nat) (p q v : Int) (hp0 : 0 ≤ p) (hp : p ≤ 5)
    (hq0 : 0 ≤ q) (hq : q ≤ 5) (hv0 : 0 ≤ v) (hv : v ≤ 3) :
    Column.get (Column.set col p v) q = if q = p then v else Column.get col q := by
  lift p to ℕ using hp0
  lift q to ℕ using hq0
  lift v to ℕ using hv0
  have e1 : (2 * (p : Int)).toNat = 2 * p := by omega
  have e2 : (2 * (q : Int)).toNat = 2 * q := by omega
  unfold Column.get Column.set
  rw [e1, e2, Int.toNat_ofNat, cell_set_nat col p q v (by omega) (by omega) (by omega)]
  by_cases h : q = p
  · subst h; simp
  · have h1 : ¬ (q : Int) = (p : Int) := by omega
    simp [h, h1]

theorem column_get_nonneg (col : Nat) (q : Int) : 0 ≤ Column.get col q := by
  unfold Column.get
  exact Int.natCast_nonneg _

theorem column_get_zero (q : Int) : Column.get 0 q = 0 := by
  unfold Column.get
  simp

theorem max_pos_gap_free (col : Nat) (h : Int) (h0 : 0 ≤ h) (h6 : h ≤ 6)
    (hg : ∀ y : Int, 0 ≤ y → y < 6 → (Column.get col y ≠ 0 ↔ y < h)) :
    Column.max_pos col = h - 1 := by
  have g0 := hg 0 (by norm_num) (by norm_num)
  have g1 := hg 1 (by norm_num) (by norm_num)
  have g2 := hg 2 (by norm_num) (by norm_num)
  have g3 := hg 3 (by norm_num) (by norm_num)
  have g4 := hg 4 (by norm_num) (by norm_num)
  have g5 := hg 5 (by norm_num) (by norm_num)
  have n0 := column_get_nonneg col 0
  have n1 := column_get_nonneg col 1
  have n2 := column_get_nonneg col 2
  have n3 := column_get_nonneg col 3
  have n4 := column_get_nonneg col 4
  have n5 := column_get_nonneg col 5
  simp only [Column.max_pos, Column.max_pos_from, Nat.cast_ofNat, Nat.cast_zero, Nat.cast_one]
  split_ifs <;> omega

/-! ## Placing a piece -/

theorem valid_pos_iff (x y : Int) :
    Board.valid_pos x y = true ↔ (0 ≤ x ∧ x < 7 ∧ 0 ≤ y ∧ y < 6) := by
  simp [Board.valid_pos, C, R, and_assoc]

theorem place_ok_inv (b b1 : Board) (x p : Int) (w : Bool) (h : b.place x p = .ok (b1, w)) :
    0 ≤ x ∧ x < 7 ∧ 0 ≤ Column.max_pos (b.cols x) + 1 ∧ Column.max_pos (b.cols x) + 1 < 6 ∧
      b1 = ⟨Function.update b.cols x
        (Column.set (b.cols x) (Column.max_pos (b.cols x) + 1) p)⟩ := by
  unfold Board.place Board.col_at Board.set at h
  by_cases hx : 0 ≤ x ∧ x < C
  · rw [if_pos hx] at h
    by_cases hv : Board.valid_pos x (Column.max_pos (b.cols x) + 1) = true
    · simp [hv] at h
      obtain ⟨h1, _⟩ := h
      have := (valid_pos_iff _ _).1 hv
      exact ⟨this.1, this.2.1, this.2.2.1, this.2.2.2, h1.symm⟩
    · simp [hv] at h
  · rw [if_neg hx] at h
    cases h

theorem place_ok (b : Board) (x p : Int) (hx0 : 0 ≤ x) (hx : x < 7)
    (h0 : 0 ≤ Column.max_pos (b.cols x) + 1) (h6 : Column.max_pos (b.cols x) + 1 < 6) :
    b.place x p =
      .ok (⟨Function.update b.cols x
          (Column.set (b.cols x) (Column.max_pos (b.cols x) + 1) p)⟩,
        Board.check_win ⟨Function.update b.cols x
          (Column.set (b.cols x) (Column.max_pos (b.cols x) + 1) p)⟩ x
          (Column.max_pos (b.cols x) + 1)) := by
  have hv : Board.valid_pos x (Column.max_pos (b.cols x) + 1) = true :=
    (valid_pos_iff _ _).2 ⟨hx0, hx, h0, h6⟩
  have hc : 0 ≤ x ∧ x < C := ⟨hx0, hx⟩
  simp [Board.place, Board.col_at, Board.set, hc, hv]

theorem get_after_set (b : Board) (x h p x1 y1 : Int) (hh0 : 0 ≤ h) (hh : h < 6)
    (hp0 : 0 ≤ p) (hp : p ≤ 3) (hy0 : 0 ≤ y1) (hy : y1 < 6) :
    Board.get ⟨Function.update b.cols x (Column.set (b.cols x) h p)⟩ x1 y1
      = if x1 = x ∧ y1 = h then p else b.get x1 y1 := by
  unfold Board.get
  by_cases hx : x1 = x
  · subst hx
    simp only [Function.update_same, true_and]
    exact column_get_set (b.cols x1) h y1 p hh0 (by omega) hy0 (by omega) hp0 hp
  · simp [Function.update_noteq hx, hx]

theorem gap_free_unique (b : Board) (x h h1 : Int) (a : gap_free b x h)
    (a1 : gap_free b x h1) : h = h1 := by
  obtain ⟨h0, h6, hg⟩ := a
  obtain ⟨k0, k6, kg⟩ := a1
  by_contra hne
  rcases lt_or_gt_of_ne hne with hlt | hgt
  · have := (kg h h0 (by omega)).2 hlt
    have := (hg h h0 (by omega)).1 this
    omega
  · have := (hg h1 k0 (by omega)).2 hgt
    have := (kg h1 k0 (by omega)).1 this
    omega

theorem gap_free_step (b : Board) (x p h c : Int) (hp0 : 1 ≤ p) (hp : p ≤ 3)
    (hx : gap_free b x h) (hh : h < 6) (hc : ∃ k : Int, gap_free b c k) :
    ∃ k : Int, gap_free ⟨Function.update b.cols x (Column.set (b.cols x) h p)⟩ c k := by
  obtain ⟨k, hk⟩ := hc
  by_cases hcx : c = x
  · subst hcx
    refine ⟨h + 1, by have := hx.1; omega, by omega, ?_⟩
    intro y hy0 hy
    rw [get_after_set b c h p c y hx.1 hh (by omega) hp hy0 hy]
    by_cases hyh : y = h
    · subst hyh
      simp only [and_self, if_true]
      constructor
      · intro _; omega
      · intro _; omega
    · have := hx.2.2 y hy0 hy
      simp only [hyh, and_false, if_false]
      rw [this]
      omega
  · refine ⟨k, hk.1, hk.2.1, ?_⟩
    intro y hy0 hy
    rw [get_after_set b x h p c y hx.1 hh (by omega) hp hy0 hy]
    simp only [hcx, false_and, if_false]
    exact hk.2.2 y hy0 hy

theorem player_mark (p : Int) (hp : p = PLAYER ∨ p = COMPUTER) : 1 ≤ p ∧ p ≤ 3 := by
  rcases hp with rfl | rfl <;> simp [PLAYER, COMPUTER]

theorem played_gap_free (b : Board) (hb : Played b) :
    ∀ c : Int, 0 ≤ c → c < 7 → ∃ h : Int, gap_free b c h := by
  induction hb with
  | empty =>
    intro c _ _
    refine ⟨0, le_refl 0, by norm_num, ?_⟩
    intro y _ _
    simp [Board.get, Board.empty, column_get_zero]
    omega
  | place b b1 x p w _ hp hpl ih =>
    intro c hc0 hc
    obtain ⟨hx0, hx, h0, h6, rfl⟩ := place_ok_inv b b1 x p w hpl
    obtain ⟨h, hg⟩ := ih x hx0 hx
    have hm := max_pos_gap_free (b.cols x) h hg.1 hg.2.1 hg.2.2
    have e : Column.max_pos (b.cols x) + 1 = h := by omega
    rw [e] at h6 ⊢
    exact gap_free_step b x p h c (player_mark p hp).1 (player_mark p hp).2 hg h6
      (ih c hc0 hc)

/-- C19. Gravity invariant of `Board::place`: on every board obtained from the empty
board by successful `place` calls of the two players, every column `0..6` is gap-free
with some height `h <= 6`. For a column `x` in `0..6` of height `h`, `place(x, p)`
succeeds only if `h < 6`, and if `h < 6` it succeeds, writes `p` at row `h` of column
`x`, changes no other cell (and no other column word), returns `check_win(x, h)` of
the new board, and leaves column `x` gap-free with height `h + 1`. -/
theorem place_gravity (b : Board) (hb : Played b) (x p : Int) (hx0 : 0 ≤ x) (hx : x < 7)
    (hp : p = PLAYER ∨ p = COMPUTER) :
    (∀ c : Int, 0 ≤ c → c < 7 → ∃ h : Int, gap_free b c h) ∧
      ∃ h : Int, gap_free b x h ∧
        (∀ (b1 : Board) (w : Bool), b.place x p = .ok (b1, w) → h < 6) ∧
        (h < 6 →
          ∃ b1 : Board, b.place x p = .ok (b1, b1.check_win x h) ∧ b1.get x h = p ∧
            (∀ x1 y1 : Int, Board.valid_pos x1 y1 = true → ¬ (x1 = x ∧ y1 = h) →
              b1.get x1 y1 = b.get x1 y1) ∧
            (∀ c : Int, c ≠ x → b1.cols c = b.cols c) ∧
            gap_free b1 x (h + 1)) := by
  refine ⟨played_gap_free b hb, ?_⟩
  obtain ⟨h, hg⟩ := played_gap_free b hb x hx0 hx
  have hm := max_pos_gap_free (b.cols x) h hg.1 hg.2.1 hg.2.2
  have e : Column.max_pos (b.cols x) + 1 = h := by omega
  have hpm := player_mark p hp
  have hh0 := hg.1
  refine ⟨h, hg, ?_, ?_⟩
  · intro b1 w hpl
    have := place_ok_inv b b1 x p w hpl
    omega
  · intro hh
    have hpl := place_ok b x p hx0 hx (by omega) (by omega)
    rw [e] at hpl
    refine ⟨_, hpl, ?_, ?_, ?_, ?_⟩
    · rw [get_after_set b x h p x h hg.1 hh (by omega) hpm.2 hg.1 hh]
      simp
    · intro x1 y1 hv hne
      have hv1 := (valid_pos_iff x1 y1).1 hv
      rw [get_after_set b x h p x1 y1 hg.1 hh (by omega) hpm.2 hv1.2.2.1 hv1.2.2.2]
      simp [hne]
    · intro c hc
      simp [Function.update_noteq hc]
    · obtain ⟨k, hk⟩ := gap_free_step b x p h x hpm.1 hpm.2 hg hh ⟨h, hg⟩
      have hk1 : k = h + 1 := by
        have hy := hk.2.2 h hh0 hh
        rw [get_after_set b x h p x h hg.1 hh (by omega) hpm.2 hg.1 hh] at hy
        simp only [and_self, if_true] at hy
        have hlt : h < k := hy.1 (by omega)
        by_contra hne
        have hk6 := hk.2.1
        have hy1 := hk.2.2 (h + 1) (by omega) (by omega)
        rw [get_after_set b x h p x (h + 1) hg.1 hh (by omega) hpm.2 (by omega)
          (by omega)] at hy1
        have hne1 : ¬ (x = x ∧ h + 1 = h) := by omega
        simp only [hne1, if_false] at hy1
        have := hg.2.2 (h + 1) (by omega) (by omega)
        have := hy1.2 (by omega)
        omega
      rw [← hk1]
      exact hk

/-- Witness for C19: the empty board, column 3, the human player. -/
theorem place_gravity_witness :
    (∀ c : Int, 0 ≤ c → c < 7 → ∃ h : Int, gap_free Board.empty c h) ∧
      ∃ h : Int, gap_free Board.empty 3 h ∧
        (∀ (b1 : Board) (w : Bool), Board.empty.place 3 PLAYER = .ok (b1, w) → h < 6) ∧
        (h < 6 →
          ∃ b1 : Board, Board.empty.place 3 PLAYER = .ok (b1, b1.check_win 3 h) ∧
            b1.get 3 h = PLAYER ∧
            (∀ x1 y1 : Int, Board.valid_pos x1 y1 = true → ¬ (x1 = 3 ∧ y1 = h) →
              b1.get x1 y1 = Board.empty.get x1 y1) ∧
            (∀ c : Int, c ≠ 3 → b1.cols c = Board.empty.cols c) ∧
            gap_free b1 3 (h + 1)) :=
  place_gravity Board.empty Played.empty 3 PLAYER (by decide) (by decide) (Or.inl rfl)

/-! ## Illegal moves -/

theorem max_pos_full (col : Nat) (h : Column.get col 5 ≠ 0) : Column.max_pos col = 5 := by
  have n5 := column_get_nonneg col 5
  have : Column.get col 5 > 0 := by omega
  simp [Column.max_pos, Column.max_pos_from, this]

/-- A move into a full column `x` in `0..6`: `place` throws `GameException` with the
message "Invalid position!" before any column is written, and the player's move loop
goes on to the next input with the same board. -/
theorem full_column_rejected (b : Board) (x player : Int) (rest : List Int)
    (hx0 : 0 ≤ x) (hx : x < 7) (hfull : ∀ y : Int, 0 ≤ y → y < 6 → b.get x y ≠ 0) :
    b.place x player = .error (.thrown ⟨"Invalid position!"⟩) ∧
      player_move b (x :: rest) = player_move b rest := by
  have hm := max_pos_full (b.cols x) (hfull 5 (by norm_num) (by norm_num))
  have hv : Board.valid_pos x (Column.max_pos (b.cols x) + 1) = false := by
    rw [Bool.eq_false_iff]
    intro hv
    have hv1 := (valid_pos_iff _ _).1 hv
    omega
  have hc : 0 ≤ x ∧ x < C := ⟨hx0, hx⟩
  have hpl : ∀ q : Int, b.place x q = .error (.thrown ⟨"Invalid position!"⟩) := by
    intro q
    simp [Board.place, Board.col_at, Board.set, hc, hv]
  refine ⟨hpl player, ?_⟩
  simp [player_move, hpl PLAYER]

/-- A move into a column index outside `0..6`: `place` reads outside the array before
anything is validated. -/
theorem out_of_range_read (b : Board) (x player : Int) (rest : List Int)
    (hx : x < 0 ∨ 7 ≤ x) :
    b.place x player = .error .out_of_bounds ∧
      player_move b (x :: rest) = .undefined := by
  have hc : ¬ (0 ≤ x ∧ x < C) := by
    unfold C
    omega
  have hpl : ∀ q : Int, b.place x q = .error .out_of_bounds := by
    intro q
    simp [Board.place, Board.col_at, hc]
  refine ⟨hpl player, ?_⟩
  simp [player_move, hpl PLAYER]

/-- C20 (the code at a failing input). The player types 7 at the prompt (or -1):
whatever the board, `Board::place` reads `cols[xpos]` outside `Column cols[7]` before
`Board::set` validates the position, so no `GameException` is guaranteed and the move
loop of `master` has undefined behaviour instead of asking again. On the empty board
the next input 3 is never reached. -/
theorem place_reads_before_validating (b : Board) (player : Int) (rest : List Int) :
    b.place 7 player = .error .out_of_bounds ∧
      b.place (-1) player = .error .out_of_bounds ∧
      player_move b (7 :: rest) = .undefined ∧
      player_move b (-1 :: rest) = .undefined :=
  ⟨(out_of_range_read b 7 player rest (Or.inr (by decide))).1,
    (out_of_range_read b (-1) player rest (Or.inl (by decide))).1,
    (out_of_range_read b 7 player rest (Or.inr (by decide))).2,
    (out_of_range_read b (-1) player rest (Or.inl (by decide))).2⟩

/-! ## Win detection -/

theorem count_dir_succ (b : Board) (init dxk dyk : Int) (fuel : Nat) (x y : Int) :
    b.count_dir init dxk dyk (fuel + 1) x y
      = if Board.valid_pos x y = true ∧ b.get x y = init then
          b.count_dir init dxk dyk fuel (x + dxk) (y + dyk) + 1
        else 0 := by
  simp [Board.count_dir]

theorem count_dir_cells (b : Board) (init dxk dyk : Int) (fuel : Nat) :
    ∀ (x y : Int) (i : Nat), i < b.count_dir init dxk dyk fuel x y →
      Board.valid_pos (x + i * dxk) (y + i * dyk) = true ∧
        b.get (x + i * dxk) (y + i * dyk) = init := by
  induction fuel with
  | zero => intro x y i hi; simp [Board.count_dir] at hi
  | succ fuel ih =>
    intro x y i hi
    rw [count_dir_succ] at hi
    split_ifs at hi with hok
    · cases i with
      | zero => simpa using hok
      | succ i =>
        have := ih (x + dxk) (y + dyk) i (by omega)
        have e1 : x + dxk + (i : Int) * dxk = x + ((i + 1 : Nat) : Int) * dxk := by
          push_cast; ring
        have e2 : y + dyk + (i : Int) * dyk = y + ((i + 1 : Nat) : Int) * dyk := by
          push_cast; ring
        rw [e1, e2] at this
        exact this
    · omega

theorem count_dir_stop (b : Board) (init dxk dyk : Int) (fuel : Nat) :
    ∀ (x y : Int), b.count_dir init dxk dyk fuel x y < fuel →
      ¬ (Board.valid_pos (x + (b.count_dir init dxk dyk fuel x y : Nat) * dxk)
            (y + (b.count_dir init dxk dyk fuel x y : Nat) * dyk) = true ∧
          b.get (x + (b.count_dir init dxk dyk fuel x y : Nat) * dxk)
            (y + (b.count_dir init dxk dyk fuel x y : Nat) * dyk) = init) := by
  induction fuel with
  | zero => intro x y h; omega
  | succ fuel ih =>
    intro x y h
    rw [count_dir_succ] at h ⊢
    split_ifs at h ⊢ with hok
    · have := ih (x + dxk) (y + dyk) (by omega)
      have e1 : x + dxk + (b.count_dir init dxk dyk fuel (x + dxk) (y + dyk) : Nat) * dxk
          = x + ((b.count_dir init dxk dyk fuel (x + dxk) (y + dyk) + 1 : Nat) : Int) * dxk := by
        push_cast; ring
      have e2 : y + dyk + (b.count_dir init dxk dyk fuel (x + dxk) (y + dyk) : Nat) * dyk
          = y + ((b.count_dir init dxk dyk fuel (x + dxk) (y + dyk) + 1 : Nat) : Int) * dyk := by
        push_cast; ring
      rw [e1, e2] at this
      exact this
    · simpa using hok

/-- A walk in one of the eight directions leaves the board after at most 7 cells. -/
theorem count_dir_le_seven (b : Board) (init dxk dyk : Int) (fuel : Nat) (x y : Int)
    (hd : (dxk = 1 ∨ dxk = -1) ∨ (dyk = 1 ∨ dyk = -1)) :
    b.count_dir init dxk dyk fuel x y ≤ 7 := by
  by_contra hgt
  have h0 := (count_dir_cells b init dxk dyk fuel x y 0 (by omega)).1
  have h7 := (count_dir_cells b init dxk dyk fuel x y 7 (by omega)).1
  rw [valid_pos_iff] at h0 h7
  push_cast at h0 h7
  rcases hd with (h | h) | (h | h) <;> subst h <;> omega
theorem count_dir_pos (b : Board) (dxk dyk : Int) (fuel : Nat) (x y : Int)
    (hv : Board.valid_pos x y = true) :
    1 ≤ b.count_dir (b.get x y) dxk dyk (fuel + 1) x y := by
  rw [count_dir_succ]
  simp [hv]

theorem pair_iff (b : Board) (ldx ldy : Int) (fuel : Nat) (hfuel : 8 ≤ fuel) (x y : Int)
    (hv : Board.valid_pos x y = true)
    (hd : (ldx = 1 ∨ ldx = -1) ∨ (ldy = 1 ∨ ldy = -1)) :
    b.count_dir (b.get x y) (-ldx) (-ldy) fuel x y
        + b.count_dir (b.get x y) ldx ldy fuel x y ≥ 5 ↔
      ∃ a c : Nat, a + c + 1 ≥ 4 ∧ max_run b (b.get x y) x y ldx ldy a c := by
  obtain ⟨f, rfl⟩ : ∃ f, fuel = f + 1 := ⟨fuel - 1, by omega⟩
  have hdn : (-ldx = 1 ∨ -ldx = -1) ∨ (-ldy = 1 ∨ -ldy = -1) := by
    rcases hd with (h | h) | (h | h) <;> subst h <;> simp
  have hb1 := count_dir_pos b (-ldx) (-ldy) f x y hv
  have hf1 := count_dir_pos b ldx ldy f x y hv
  have hb7 := count_dir_le_seven b (b.get x y) (-ldx) (-ldy) (f + 1) x y hdn
  have hf7 := count_dir_le_seven b (b.get x y) ldx ldy (f + 1) x y hd
  have hbs := count_dir_stop b (b.get x y) (-ldx) (-ldy) (f + 1) x y (by omega)
  have hfs := count_dir_stop b (b.get x y) ldx ldy (f + 1) x y (by omega)
  have hbc := count_dir_cells b (b.get x y) (-ldx) (-ldy) (f + 1) x y
  have hfc := count_dir_cells b (b.get x y) ldx ldy (f + 1) x y
  generalize b.count_dir (b.get x y) (-ldx) (-ldy) (f + 1) x y = cb at *
  generalize b.count_dir (b.get x y) ldx ldy (f + 1) x y = cf at *
  constructor
  · intro h5
    refine ⟨cb - 1, cf - 1, by omega, ?_, ?_, ?_⟩
    · intro t ht1 ht2
      by_cases ht : 0 ≤ t
      · lift t to ℕ using ht
        exact hfc t (by omega)
      · obtain ⟨i, hi⟩ : ∃ i : Nat, t = -(i : Int) := ⟨(-t).toNat, by omega⟩
        subst hi
        have := hbc i (by omega)
        have e1 : x + (i : Int) * -ldx = x + -(i : Int) * ldx := by ring
        have e2 : y + (i : Int) * -ldy = y + -(i : Int) * ldy := by ring
        rw [e1, e2] at this
        exact this
    · have e1 : x + (cb : Int) * -ldx = x + (-((cb - 1 : Nat) : Int) - 1) * ldx := by
        have : ((cb - 1 : Nat) : Int) = (cb : Int) - 1 := by omega
        rw [this]; ring
      have e2 : y + (cb : Int) * -ldy = y + (-((cb - 1 : Nat) : Int) - 1) * ldy := by
        have : ((cb - 1 : Nat) : Int) = (cb : Int) - 1 := by omega
        rw [this]; ring
      rw [e1, e2] at hbs
      exact hbs
    · have e1 : x + (cf : Int) * ldx = x + (((cf - 1 : Nat) : Int) + 1) * ldx := by
        have : ((cf - 1 : Nat) : Int) = (cf : Int) - 1 := by omega
        rw [this]; ring
      have e2 : y + (cf : Int) * ldy = y + (((cf - 1 : Nat) : Int) + 1) * ldy := by
        have : ((cf - 1 : Nat) : Int) = (cf : Int) - 1 := by omega
        rw [this]; ring
      rw [e1, e2] at hfs
      exact hfs
  · rintro ⟨a, c, hac, hrun, _, _⟩
    have hcf : c < cf := by
      by_contra hle
      exact hfs (hrun cf (by omega) (by omega))
    have hcb : a < cb := by
      by_contra hle
      have := hrun (-(cb : Int)) (by omega) (by omega)
      have e1 : x + -(cb : Int) * ldx = x + (cb : Int) * -ldx := by ring
      have e2 : y + -(cb : Int) * ldy = y + (cb : Int) * -ldy := by ring
      rw [e1, e2] at this
      exact hbs this
    omega

/-- C18. Connect-four win detection: for every board and every cell `(x, y)` with
`0 <= x < 7`, `0 <= y < 6`, `check_win(x, y)` (and the same computation with any larger
bound on the inner loops, which therefore all end by themselves) is true exactly when
the cell holds a non-zero mark `p` and, on one of the four lines through it (the two
diagonals, the horizontal, the vertical), the maximal run of contiguous on-board cells
holding `p` through `(x, y)` has length at least 4. -/
theorem check_win_iff (b : Board) (fuel : Nat) (hfuel : 8 ≤ fuel) (x y : Int)
    (hx0 : 0 ≤ x) (hx : x < 7) (hy0 : 0 ≤ y) (hy : y < 6) :
    b.check_win_fuel fuel x y = b.check_win x y ∧
      (b.check_win x y = true ↔
        (b.get x y ≠ 0 ∧
          ∃ l ∈ lines, ∃ a c : Nat, a + c + 1 ≥ 4 ∧
            max_run b (b.get x y) x y l.1 l.2 a c)) := by
  have hv : Board.valid_pos x y = true := (valid_pos_iff x y).2 ⟨hx0, hx, hy0, hy⟩
  have key : ∀ fl : Nat, 8 ≤ fl →
      (b.check_win_fuel fl x y = true ↔
        (b.get x y ≠ 0 ∧
          ∃ l ∈ lines, ∃ a c : Nat, a + c + 1 ≥ 4 ∧
            max_run b (b.get x y) x y l.1 l.2 a c)) := by
    intro fl hfl
    have p1 := pair_iff b 1 1 fl hfl x y hv (Or.inl (Or.inl rfl))
    have p2 := pair_iff b 1 0 fl hfl x y hv (Or.inl (Or.inl rfl))
    have p3 := pair_iff b 1 (-1) fl hfl x y hv (Or.inl (Or.inl rfl))
    have p4 := pair_iff b 0 1 fl hfl x y hv (Or.inr (Or.inl rfl))
    by_cases h0 : b.get x y = 0
    · simp [Board.check_win_fuel, h0]
    · simp only [Board.check_win_fuel, if_neg h0, pairs, lines, List.any_cons, List.any_nil,
        Bool.or_false, Bool.or_eq_true, decide_eq_true_eq, Board.cnt, dx, dy, List.getD_cons_zero,
        List.getD_cons_succ, ne_eq, h0, not_false_eq_true, true_and, List.mem_cons,
        List.mem_singleton, exists_eq_or_imp, exists_eq_left]
      simp only [neg_zero, neg_neg] at p1 p2 p3 p4
      rw [← p1, ← p2, ← p3, ← p4]
      simp
  refine ⟨?_, key 8 (le_refl 8)⟩
  have k1 := key fuel hfuel
  have k2 := key 8 (le_refl 8)
  unfold Board.check_win
  rw [Bool.eq_iff_iff, k1, k2]

/-- Witness for C18: four marks of player 1 in row 0 of columns 0 to 3, cell `(1, 0)`. -/
theorem check_win_iff_witness :
    four_in_row.check_win 1 0 = true ∧
      Board.check_win_fuel 9 four_in_row 1 0 = four_in_row.check_win 1 0 ∧
      (four_in_row.check_win 1 0 = true ↔
        (four_in_row.get 1 0 ≠ 0 ∧
          ∃ l ∈ lines, ∃ a c : Nat, a + c + 1 ≥ 4 ∧
            max_run four_in_row (four_in_row.get 1 0) 1 0 l.1 l.2 a c)) :=
  ⟨by decide, check_win_iff four_in_row 9 (by decide) 1 0 (by decide) (by decide)
    (by decide) (by decide)⟩

/-! ## Column bit-packing -/

theorem max_pos_spec (col : Nat) :
    (Column.max_pos col = -1 ∧ ∀ q : Int, 0 ≤ q → q ≤ 5 → Column.get col q = 0) ∨
      (0 ≤ Column.max_pos col ∧ Column.max_pos col ≤ 5 ∧
        Column.get col (Column.max_pos col) ≠ 0 ∧
        ∀ q : Int, Column.max_pos col < q → q ≤ 5 → Column.get col q = 0) := by
  have n0 := column_get_nonneg col 0
  have n1 := column_get_nonneg col 1
  have n2 := column_get_nonneg col 2
  have n3 := column_get_nonneg col 3
  have n4 := column_get_nonneg col 4
  have n5 := column_get_nonneg col 5
  have hq : ∀ q : Int, 0 ≤ q → q ≤ 5 → q = 0 ∨ q = 1 ∨ q = 2 ∨ q = 3 ∨ q = 4 ∨ q = 5 := by
    intro q h0 h5; omega
  simp only [Column.max_pos, Column.max_pos_from, Nat.cast_ofNat, Nat.cast_zero, Nat.cast_one]
  split_ifs with h5 h4 h3 h2 h1 h0
  · right
    refine ⟨by norm_num, by norm_num, by omega, ?_⟩
    intro q hlt hle; omega
  · right
    refine ⟨by norm_num, by norm_num, by omega, ?_⟩
    intro q hlt hle
    rcases hq q (by omega) hle with rfl | rfl | rfl | rfl | rfl | rfl <;> omega
  · right
    refine ⟨by norm_num, by norm_num, by omega, ?_⟩
    intro q hlt hle
    rcases hq q (by omega) hle with rfl | rfl | rfl | rfl | rfl | rfl <;> omega
  · right
    refine ⟨by norm_num, by norm_num, by omega, ?_⟩
    intro q hlt hle
    rcases hq q (by omega) hle with rfl | rfl | rfl | rfl | rfl | rfl <;> omega
  · right
    refine ⟨by norm_num, by norm_num, by omega, ?_⟩
    intro q hlt hle
    rcases hq q (by omega) hle with rfl | rfl | rfl | rfl | rfl | rfl <;> omega
  · right
    refine ⟨by norm_num, by norm_num, by omega, ?_⟩
    intro q hlt hle
    rcases hq q (by omega) hle with rfl | rfl | rfl | rfl | rfl | rfl <;> omega
  · left
    refine ⟨rfl, ?_⟩
    intro q h0 hle
    rcases hq q h0 hle with rfl | rfl | rfl | rfl | rfl | rfl <;> omega

/-- C21. Column bit-packing round trip: for every column word `col`, position `p` in
`0..5` and value `v` in `0..3`, after `set(p, v)` the call `get(p)` returns `v` and
`get(q)` is what it was for every other `q` in `0..5`. For every column word (so also
after a `set`), `max_pos()` is `-1` with positions `0..5` all zero, or it is a position
in `0..5` holding a non-zero value with zero at every larger position up to 5. -/
theorem column_round_trip (col : Nat) (p q v : Int) (hp0 : 0 ≤ p) (hp : p ≤ 5)
    (hq0 : 0 ≤ q) (hq : q ≤ 5) (hv0 : 0 ≤ v) (hv : v ≤ 3) :
    Column.get (Column.set col p v) p = v ∧
      (q ≠ p → Column.get (Column.set col p v) q = Column.get col q) ∧
      ((Column.max_pos (Column.set col p v) = -1 ∧
          ∀ r : Int, 0 ≤ r → r ≤ 5 → Column.get (Column.set col p v) r = 0) ∨
        (0 ≤ Column.max_pos (Column.set col p v) ∧ Column.max_pos (Column.set col p v) ≤ 5 ∧
          Column.get (Column.set col p v) (Column.max_pos (Column.set col p v)) ≠ 0 ∧
          ∀ r : Int, Column.max_pos (Column.set col p v) < r → r ≤ 5 →
            Column.get (Column.set col p v) r = 0)) ∧
      ((Column.max_pos col = -1 ∧ ∀ r : Int, 0 ≤ r → r ≤ 5 → Column.get col r = 0) ∨
        (0 ≤ Column.max_pos col ∧ Column.max_pos col ≤ 5 ∧
          Column.get col (Column.max_pos col) ≠ 0 ∧
          ∀ r : Int, Column.max_pos col < r → r ≤ 5 → Column.get col r = 0)) := by
  refine ⟨?_, ?_, max_pos_spec _, max_pos_spec col⟩
  · rw [column_get_set col p p v hp0 hp hp0 hp hv0 hv]
    simp
  · intro hne
    rw [column_get_set col p q v hp0 hp hq0 hq hv0 hv]
    simp [hne]

/-- Witness for C21: the column word 9 (marks 1 and 2 at positions 0 and 1), writing
mark 1 at position 2 and reading position 0. -/
theorem column_round_trip_witness :
    Column.get (Column.set 9 2 1) 2 = 1 ∧
      ((0 : Int) ≠ 2 → Column.get (Column.set 9 2 1) 0 = Column.get 9 0) ∧
      ((Column.max_pos (Column.set 9 2 1) = -1 ∧
          ∀ r : Int, 0 ≤ r → r ≤ 5 → Column.get (Column.set 9 2 1) r = 0) ∨
        (0 ≤ Column.max_pos (Column.set 9 2 1) ∧ Column.max_pos (Column.set 9 2 1) ≤ 5 ∧
          Column.get (Column.set 9 2 1) (Column.max_pos (Column.set 9 2 1)) ≠ 0 ∧
          ∀ r : Int, Column.max_pos (Column.set 9 2 1) < r → r ≤ 5 →
            Column.get (Column.set 9 2 1) r = 0)) ∧
      ((Column.max_pos 9 = -1 ∧ ∀ r : Int, 0 ≤ r → r ≤ 5 → Column.get 9 r = 0) ∨
        (0 ≤ Column.max_pos 9 ∧ Column.max_pos 9 ≤ 5 ∧
          Column.get 9 (Column.max_pos 9) ≠ 0 ∧
          ∀ r : Int, Column.max_pos 9 < r → r ≤ 5 → Column.get 9 r = 0)) :=
  column_round_trip 9 2 0 1 (by decide) (by decide) (by decide) (by decide) (by decide)
    (by decide)

/-! ## Ordering of position keys -/

theorem lt_loop_irrefl (a : Nat → Int) (n : Nat) :
    ∀ i : Nat, PositionKey.lt_loop a a n i = false := by
  induction n with
  | zero => intro i; rfl
  | succ n ih => intro i; simp [PositionKey.lt_loop, ih]

theorem loop_trichotomy (a b : Nat → Int) (n : Nat) :
    ∀ i : Nat,
      (PositionKey.lt_loop a b n i = true ∨ PositionKey.lt_loop b a n i = true ∨
          PositionKey.eq_loop a b n i = true) ∧
        ¬ (PositionKey.lt_loop a b n i = true ∧ PositionKey.lt_loop b a n i = true) ∧
        ¬ (PositionKey.lt_loop a b n i = true ∧ PositionKey.eq_loop a b n i = true) ∧
        ¬ (PositionKey.lt_loop b a n i = true ∧ PositionKey.eq_loop a b n i = true) := by
  induction n with
  | zero => intro i; simp [PositionKey.lt_loop, PositionKey.eq_loop]
  | succ n ih =>
    intro i
    by_cases h : a i = b i
    · have h1 : b i = a i := h.symm
      simp only [PositionKey.lt_loop, PositionKey.eq_loop, ne_eq, if_neg (not_not.2 h),
        if_neg (not_not.2 h1)]
      exact ih (i + 1)
    · have h1 : ¬ b i = a i := fun e => h e.symm
      simp only [PositionKey.lt_loop, PositionKey.eq_loop, ne_eq, if_pos h, if_pos h1,
        decide_eq_true_eq]
      refine ⟨?_, ?_, ?_, ?_⟩
      · rcases lt_or_gt_of_ne h with hl | hl
        · exact Or.inl hl
        · exact Or.inr (Or.inl hl)
      · intro ⟨h2, h3⟩; omega
      · intro ⟨_, h3⟩; cases h3
      · intro ⟨_, h3⟩; cases h3

theorem lt_loop_trans (a b c : Nat → Int) (n : Nat) :
    ∀ i : Nat, PositionKey.lt_loop a b n i = true → PositionKey.lt_loop b c n i = true →
      PositionKey.lt_loop a c n i = true := by
  induction n with
  | zero => intro i h; simp [PositionKey.lt_loop] at h
  | succ n ih =>
    intro i hab hbc
    simp only [PositionKey.lt_loop, ne_eq] at hab hbc ⊢
    by_cases h1 : a i = b i
    · rw [if_neg (not_not.2 h1)] at hab
      by_cases h2 : b i = c i
      · rw [if_neg (not_not.2 h2)] at hbc
        rw [if_neg (not_not.2 (h1.trans h2))]
        exact ih (i + 1) hab hbc
      · rw [if_pos h2] at hbc
        have hlt : b i < c i := of_decide_eq_true hbc
        have hne : ¬ a i = c i := by omega
        rw [if_pos hne]
        exact decide_eq_true (by omega)
    · rw [if_pos h1] at hab
      have hlt : a i < b i := of_decide_eq_true hab
      by_cases h2 : b i = c i
      · have hne : ¬ a i = c i := by omega
        rw [if_pos hne]
        exact decide_eq_true (by omega)
      · rw [if_pos h2] at hbc
        have hlt2 : b i < c i := of_decide_eq_true hbc
        have hne : ¬ a i = c i := by omega
        rw [if_pos hne]
        exact decide_eq_true (by omega)

theorem lt_loop_congr (a a1 b b1 : Nat → Int) (n : Nat) :
    ∀ i : Nat, (∀ t : Nat, t < n → a (i + t) = a1 (i + t)) →
      (∀ t : Nat, t < n → b (i + t) = b1 (i + t)) →
      PositionKey.lt_loop a b n i = PositionKey.lt_loop a1 b1 n i := by
  induction n with
  | zero => intro i _ _; rfl
  | succ n ih =>
    intro i ha hb
    have e1 := ha 0 (by omega)
    have e2 := hb 0 (by omega)
    simp only [Nat.add_zero] at e1 e2
    have hrec := ih (i + 1)
      (fun t ht => by have := ha (t + 1) (by omega); rwa [Nat.add_assoc, Nat.add_comm 1 t])
      (fun t ht => by have := hb (t + 1) (by omega); rwa [Nat.add_assoc, Nat.add_comm 1 t])
    simp only [PositionKey.lt_loop, e1, e2, hrec]

theorem eq_loop_congr (a a1 b b1 : Nat → Int) (n : Nat) :
    ∀ i : Nat, (∀ t : Nat, t < n → a (i + t) = a1 (i + t)) →
      (∀ t : Nat, t < n → b (i + t) = b1 (i + t)) →
      PositionKey.eq_loop a b n i = PositionKey.eq_loop a1 b1 n i := by
  induction n with
  | zero => intro i _ _; rfl
  | succ n ih =>
    intro i ha hb
    have e1 := ha 0 (by omega)
    have e2 := hb 0 (by omega)
    simp only [Nat.add_zero] at e1 e2
    have hrec := ih (i + 1)
      (fun t ht => by have := ha (t + 1) (by omega); rwa [Nat.add_assoc, Nat.add_comm 1 t])
      (fun t ht => by have := hb (t + 1) (by omega); rwa [Nat.add_assoc, Nat.add_comm 1 t])
    simp only [PositionKey.eq_loop, e1, e2, hrec]

theorem key_lt_trans (a b c : PositionKey) (hab : a.lt b = true) (hbc : b.lt c = true) :
    a.lt c = true := by
  unfold PositionKey.lt at hab hbc ⊢
  by_cases h1 : a.len = b.len
  · rw [if_pos h1] at hab
    by_cases h2 : b.len = c.len
    · rw [if_pos h2, ← h1] at hbc
      rw [if_pos (h1.trans h2)]
      exact lt_loop_trans a.pos b.pos c.pos _ 0 hab hbc
    · rw [if_neg h2] at hbc
      have hlt : b.len < c.len := of_decide_eq_true hbc
      have hne : ¬ a.len = c.len := by omega
      rw [if_neg hne]
      exact decide_eq_true (by omega)
  · rw [if_neg h1] at hab
    have hlt : a.len < b.len := of_decide_eq_true hab
    by_cases h2 : b.len = c.len
    · have hne : ¬ a.len = c.len := by omega
      rw [if_neg hne]
      exact decide_eq_true (by omega)
    · rw [if_neg h2] at hbc
      have hlt2 : b.len < c.len := of_decide_eq_true hbc
      have hne : ¬ a.len = c.len := by omega
      rw [if_neg hne]
      exact decide_eq_true (by omega)

theorem key_trichotomy (a b : PositionKey) :
    (a.lt b = true ∨ b.lt a = true ∨ a.eq b = true) ∧
      ¬ (a.lt b = true ∧ b.lt a = true) ∧
      ¬ (a.lt b = true ∧ a.eq b = true) ∧
      ¬ (b.lt a = true ∧ a.eq b = true) := by
  unfold PositionKey.lt PositionKey.eq
  by_cases h : a.len = b.len
  · simp only [h, if_true]
    exact loop_trichotomy a.pos b.pos b.len.toNat 0
  · have h1 : ¬ b.len = a.len := fun e => h e.symm
    simp only [h, h1, if_false, decide_eq_true_eq]
    refine ⟨?_, ?_, ?_, ?_⟩
    · rcases lt_or_gt_of_ne h with hl | hl
      · exact Or.inl hl
      · exact Or.inr (Or.inl hl)
    · intro ⟨h2, h3⟩; omega
    · intro ⟨_, h3⟩; cases h3
    · intro ⟨_, h3⟩; cases h3

theorem key_same_congr (a a1 b : PositionKey) (hs : PositionKey.same a a1) :
    a.lt b = a1.lt b ∧ b.lt a = b.lt a1 ∧ a.eq b = a1.eq b := by
  obtain ⟨hl, hp⟩ := hs
  have hpa : ∀ t : Nat, t < a.len.toNat → a.pos (0 + t) = a1.pos (0 + t) := by
    intro t ht
    rw [Nat.zero_add]
    exact hp t (by omega)
  unfold PositionKey.lt PositionKey.eq
  rw [← hl]
  refine ⟨?_, ?_, ?_⟩
  · split_ifs with h
    · exact lt_loop_congr a.pos a1.pos b.pos b.pos _ 0 hpa (fun _ _ => rfl)
    · rfl
  · split_ifs with h
    · rw [h]
      exact lt_loop_congr b.pos b.pos a.pos a1.pos _ 0 (fun _ _ => rfl) hpa
    · rfl
  · split_ifs with h
    · exact eq_loop_congr a.pos a1.pos b.pos b.pos _ 0 hpa (fun _ _ => rfl)
    · rfl

/-- C22. PositionKey ordering: on keys with `0 <= len <= 5`, `operator <` is
irreflexive and transitive, and for two keys `a`, `b` exactly one of `a < b`, `b < a`,
`a == b` holds. The three results depend only on `len` and the first `len` entries:
replacing `a` by a key `a1` of the same length that agrees with it below `len` (and
differs anywhere beyond) changes none of them. -/
theorem position_key_order (a b c a1 : PositionKey)
    (_ha : 0 ≤ a.len ∧ a.len ≤ 5) (_hb : 0 ≤ b.len ∧ b.len ≤ 5)
    (_hc : 0 ≤ c.len ∧ c.len ≤ 5) (hs : PositionKey.same a a1) :
    a.lt a = false ∧
      (a.lt b = true → b.lt c = true → a.lt c = true) ∧
      ((a.lt b = true ∨ b.lt a = true ∨ a.eq b = true) ∧
        ¬ (a.lt b = true ∧ b.lt a = true) ∧
        ¬ (a.lt b = true ∧ a.eq b = true) ∧
        ¬ (b.lt a = true ∧ a.eq b = true)) ∧
      (a.lt b = a1.lt b ∧ b.lt a = b.lt a1 ∧ a.eq b = a1.eq b) := by
  refine ⟨?_, key_lt_trans a b c, key_trichotomy a b, key_same_congr a a1 b hs⟩
  simp [PositionKey.lt, lt_loop_irrefl]
/-- Witness for C22: the keys `[3] < [3, 1] < [4, 9]`, and `[3]` with other contents
beyond its length. -/
theorem position_key_order_witness :
    (key_a.lt key_b = true ∧ key_b.lt key_c = true ∧ key_a.eq key_a1 = true) ∧
      key_a.lt key_a = false ∧
      (key_a.lt key_b = true → key_b.lt key_c = true → key_a.lt key_c = true) ∧
      ((key_a.lt key_b = true ∨ key_b.lt key_a = true ∨ key_a.eq key_b = true) ∧
        ¬ (key_a.lt key_b = true ∧ key_b.lt key_a = true) ∧
        ¬ (key_a.lt key_b = true ∧ key_a.eq key_b = true) ∧
        ¬ (key_b.lt key_a = true ∧ key_a.eq key_b = true)) ∧
      (key_a.lt key_b = key_a1.lt key_b ∧ key_b.lt key_a = key_b.lt key_a1 ∧
        key_a.eq key_b = key_a1.eq key_b) :=
  ⟨by decide,
    position_key_order key_a key_b key_c key_a1 (by decide) (by decide) (by decide)
      ⟨rfl, fun i hi => by
        have h0 : i = 0 := by
          have : ((i : Int)) < 1 := hi
          omega
        subst h0
        rfl⟩⟩

end Connect4
